import Mathlib

/-!
Verification of the user-segmentation pipeline in `Powernode/segmentation/services.py`:
CSV ingestion, per-user feature aggregation, standardization, KMeans clustering,
automatic K selection and per-cluster summaries.  The Python functions are embedded
shallowly as executable Lean definitions over `ℚ`-valued data; external library calls
(sklearn's `StandardScaler`, `KMeans` and the validity metrics) are modelled
explicitly where their behaviour is relied upon, or taken as parameters where only
their signature matters.
-/

namespace Powernode

/-- Mean of a list of rationals, `sum / len` (pandas `Series.mean`; an empty
list yields `0/0 = 0`, matching that no claim evaluates it on empty data). -/
def meanQ (l : List ℚ) : ℚ := l.sum / (l.length : ℚ)

/-- One step of Python's `max(..., key=f)` accumulator: replace the current best
only when the new key is strictly greater, so the first maximum wins. -/
def maxStep (f : α → ℚ) (b y : α) : α := if f b < f y then y else b

/-- One step of Python's `min(..., key=f)` accumulator: replace the current best
only when the new key is strictly smaller, so the first minimum wins. -/
def minStep (f : α → ℚ) (b y : α) : α := if f y < f b then y else b

/-- Python `max(l, key=f)`: first element of `l` attaining the maximal key
(`none` on the empty list, where Python raises). -/
def maxByKey (f : α → ℚ) : List α → Option α
  | [] => none
  | x :: xs => some (xs.foldl (maxStep f) x)

/-- Python `min(l, key=f)`: first element of `l` attaining the minimal key
(`none` on the empty list, where Python raises). -/
def minByKey (f : α → ℚ) : List α → Option α
  | [] => none
  | x :: xs => some (xs.foldl (minStep f) x)

/-- Distinct values of a list in first-occurrence order, skipping anything in
`seen`; this is the iteration order of a Python `collections.Counter`. -/
def firstOccsAux [DecidableEq α] (seen : List α) : List α → List α
  | [] => []
  | x :: xs => if x ∈ seen then firstOccsAux seen xs else x :: firstOccsAux (x :: seen) xs

/-- Distinct values of a list in first-occurrence order (Counter insertion order). -/
def firstOccs [DecidableEq α] (l : List α) : List α := firstOccsAux [] l

/-- Boolean success test for `Except`. -/
def exceptIsOk : Except ε α → Bool
  | .ok _ => true
  | .error _ => false

/-! ## Record ingestion (`load_csv_to_df`)

One parsed CSV data row after pandas type coercion: `order_time` is
`pd.to_datetime(..., errors="coerce")` (seconds since the epoch, `none` for NaT),
`amount` is `pd.to_numeric(..., errors="coerce")` (`none` for NaN), the two flag
columns have been through `astype(int)`, and the categorical columns may be
missing.  The header/schema check of `load_csv_to_df` operates on the raw CSV
before rows exist and is modelled upstream of this representation. -/

structure RawRow where
  user_id : Option String
  order_id : Option String
  order_time : Option ℚ
  amount : Option ℚ
  is_promo : ℤ
  refund_flag : ℤ
  category : Option String
  device : Option String
  channel : Option String
deriving DecidableEq

/-- A row surviving `df.dropna(subset=["user_id", "order_id", "order_time", "amount"])`. -/
structure CleanRow where
  user_id : String
  order_id : String
  order_time : ℚ
  amount : ℚ
  is_promo : ℤ
  refund_flag : ℤ
  category : Option String
  device : Option String
  channel : Option String
deriving DecidableEq

/-- The `dropna` step: keep exactly the rows whose four required fields are present. -/
def cleanRows (rows : List RawRow) : List CleanRow :=
  rows.filterMap fun r =>
    match r.user_id, r.order_id, r.order_time, r.amount with
    | some u, some o, some t, some a =>
        some ⟨u, o, t, a, r.is_promo, r.refund_flag, r.category, r.device, r.channel⟩
    | _, _, _, _ => none

/-- Error message raised by `load_csv_to_df` when no row survives cleaning. -/
def emptyMsg : String := "有效记录为空，请检查数据。"

/-- Embedding of `load_csv_to_df` after parsing and coercion: drop incomplete
rows and fail when nothing survives. -/
def loadCsvToDf (rows : List RawRow) : Except String (List CleanRow) :=
  let df := cleanRows rows
  if df.isEmpty then .error emptyMsg else .ok df

/-! ## Feature builder (`build_user_features`) -/

/-- Embedding of the inner `top_value` helper: count only the non-missing string
values with a `Counter` and return the most common one, ties resolved by
Counter insertion order, i.e. by first occurrence (`most_common` sorts stably
by descending count); an empty counter yields the empty string. -/
def topValue (xs : List (Option String)) : String :=
  let strs := xs.filterMap id
  match maxByKey (fun v => (strs.count v : ℚ)) (firstOccs strs) with
  | some v => v
  | none => ""

/-- One aggregated row of `build_user_features`. -/
structure UserFeature where
  user_id : String
  total_amount : ℚ
  order_count : ℕ
  avg_amount : ℚ
  promo_ratio : ℚ
  refund_ratio : ℚ
  last_order_time : ℚ
  recency_days : ℚ
  top_category : String
  top_channel : String
  top_device : String
deriving DecidableEq

/-- Lexicographic comparison of character lists by code point; this is the
order Python and pandas use on strings (and the order underlying `String.lt`),
written structurally so that it evaluates. -/
def charListLe : List Char → List Char → Bool
  | [], _ => true
  | _ :: _, [] => false
  | a :: as, b :: bs =>
    if a.toNat < b.toNat then true
    else if b.toNat < a.toNat then false
    else charListLe as bs

/-- Lexicographic string comparison by code point. -/
def strLe (a b : String) : Bool := charListLe a.data b.data

/-- Group keys of `df.groupby("user_id")`: the distinct user ids in ascending
order (pandas groupby sorts its keys). -/
def userIds (df : List CleanRow) : List String :=
  List.insertionSort (fun a b => strLe a b = true) ((df.map (fun r => r.user_id)).dedup)

/-- Rows of one user's group; grouping preserves the original row order inside
each group. -/
def entityRows (df : List CleanRow) (u : String) : List CleanRow :=
  df.filter fun r => r.user_id = u

/-- Maximum of a list of rationals (pandas `max` aggregation; groups are nonempty). -/
def listMaxQ : List ℚ → ℚ
  | [] => 0
  | x :: xs => xs.foldl max x

/-- Aggregation of one user's rows into its feature vector: sum/count/mean of
amounts, means of the integer flags, most recent order time, recency in
fractional days against the reference time `now` (seconds / 86400), and the
`top_value` modes of the categorical columns. -/
def mkUserFeature (now : ℚ) (u : String) (g : List CleanRow) : UserFeature :=
  let total := (g.map (fun r => r.amount)).sum
  let cnt := g.length
  let last := listMaxQ (g.map (fun r => r.order_time))
  { user_id := u
    total_amount := total
    order_count := cnt
    avg_amount := total / (cnt : ℚ)
    promo_ratio := (((g.map (fun r => r.is_promo)).sum : ℤ) : ℚ) / (cnt : ℚ)
    refund_ratio := (((g.map (fun r => r.refund_flag)).sum : ℤ) : ℚ) / (cnt : ℚ)
    last_order_time := last
    recency_days := (now - last) / 86400
    top_category := topValue (g.map (fun r => r.category))
    top_channel := topValue (g.map (fun r => r.channel))
    top_device := topValue (g.map (fun r => r.device)) }

/-- Embedding of `build_user_features`: one feature row per distinct user id. -/
def buildUserFeatures (now : ℚ) (df : List CleanRow) : List UserFeature :=
  (userIds df).map fun u => mkUserFeature now u (entityRows df u)

/-! ## Standardizer (`StandardScaler` inside `run_kmeans` / `choose_k_auto`)

Modelled from the spec: sklearn's `StandardScaler` is an external library call;
it centers every column at its mean and divides by the per-column standard
deviation `sqrt(var)`, replacing a zero scale by `1` so that constant columns
come out as zeros instead of dividing by zero.  The (irrational) square root is
taken as a parameter `sq`; every claim about scaling only relies on `sq 0 = 0`. -/

/-- Values of column `j` of a row-major matrix. -/
def colVals (rows : List (List ℚ)) (j : ℕ) : List ℚ := rows.map fun r => r.getD j 0

/-- Population variance of a column (sklearn uses `ddof = 0`). -/
def varQ (l : List ℚ) : ℚ := (l.map fun x => (x - meanQ l) ^ 2).sum / (l.length : ℚ)

/-- Per-column divisor: `sqrt(var)` with a zero scale replaced by `1`
(sklearn `_handle_zeros_in_scale`). -/
def scaleQ (sq : ℚ → ℚ) (l : List ℚ) : ℚ :=
  if sq (varQ l) = 0 then 1 else sq (varQ l)

/-- Scaled value of one row of a matrix: each column entry is centered at the
column mean and divided by the column scale; `standardize` maps this over the
rows, and theorems use it to speak about the scaled point of one row. -/
def scaledRowAux (sq : ℚ → ℚ) (rows : List (List ℚ)) (r : List ℚ) : List ℚ :=
  (List.range r.length).map fun j =>
    (r.getD j 0 - meanQ (colVals rows j)) / scaleQ sq (colVals rows j)

/-- Column-wise standardization of a row-major matrix. -/
def standardize (sq : ℚ → ℚ) (rows : List (List ℚ)) : List (List ℚ) :=
  rows.map (scaledRowAux sq rows)

/-- The fixed numeric column order `numeric_cols` of `run_kmeans`. -/
def toNumericRow (f : UserFeature) : List ℚ :=
  [f.total_amount, (f.order_count : ℚ), f.avg_amount, f.promo_ratio, f.refund_ratio,
    f.recency_days]

/-- Numeric feature matrix `user_features[numeric_cols]`. -/
def featureMatrix (uf : List UserFeature) : List (List ℚ) := uf.map toNumericRow

/-- Scaled matrix `scaler.fit_transform(data[numeric_cols])`. -/
def scaledOf (sq : ℚ → ℚ) (uf : List UserFeature) : List (List ℚ) :=
  standardize sq (featureMatrix uf)

/-! ## Cluster engine (`KMeans` inside `run_kmeans`)

Modelled from the spec: sklearn's `KMeans` is an external library call.  Its
fit validates `1 ≤ n_clusters ≤ n_samples` (raising otherwise), runs Lloyd
iterations from a deterministic seeded initialization, and returns for every
sample the index of its nearest final center together with the centers and the
inertia.  The embedding fixes the seeded initialization to the first `k`
points and a fixed iteration count; the claims rely only on the validation
bounds, label range, and nearest-center assignment. -/

/-- Squared Euclidean distance of two coordinate lists. -/
def sqDistL (a b : List ℚ) : ℚ := ((a.zip b).map fun p => (p.1 - p.2) ^ 2).sum

/-- Index of the nearest center (`np.argmin` over squared distances: the first
minimal index wins). -/
def nearestIdx (x : List ℚ) : List (List ℚ) → ℕ
  | [] => 0
  | [_] => 0
  | c :: c₂ :: cs =>
    let r := nearestIdx x (c₂ :: cs)
    if sqDistL x ((c₂ :: cs).getD r []) < sqDistL x c then r + 1 else 0

/-- Dimension-wise mean of a nonempty point set. -/
def centroidOf (pts : List (List ℚ)) : List ℚ :=
  (List.range (pts.headD []).length).map fun j => meanQ (pts.map fun p => p.getD j 0)

/-- One Lloyd center update: every cluster moves to the centroid of its members;
a cluster with no member keeps its center. -/
def updateCenters (pts : List (List ℚ)) (labels : List ℕ) (centers : List (List ℚ)) :
    List (List ℚ) :=
  (List.range centers.length).map fun j =>
    let members := (pts.zip labels).filterMap fun pl => if pl.2 = j then some pl.1 else none
    if members.isEmpty then centers.getD j [] else centroidOf members

/-- Lloyd iteration: assign to nearest centers, then update, a fixed number of times. -/
def lloyd (pts : List (List ℚ)) : ℕ → List (List ℚ) → List (List ℚ)
  | 0, cs => cs
  | n + 1, cs => lloyd pts n (updateCenters pts (pts.map fun p => nearestIdx p cs) cs)

/-- Final centers of the fit: ten Lloyd rounds from the seeded initialization. -/
def finalCenters (pts : List (List ℚ)) (k : ℕ) : List (List ℚ) :=
  lloyd pts 10 (pts.take k)

/-- The KMeans fit: validation, Lloyd iteration, final assignment and inertia. -/
def kmeansFit (pts : List (List ℚ)) (k : ℕ) :
    Except String (List ℕ × List (List ℚ) × ℚ) :=
  if k = 0 then .error "n_clusters should be at least 1"
  else if pts.length < k then .error "n_samples should be at least n_clusters"
  else
    let cs := finalCenters pts k
    let labels := pts.map fun p => nearestIdx p cs
    .ok (labels, cs, ((pts.zip labels).map fun pl => sqDistL pl.1 (cs.getD pl.2 [])).sum)

/-- Diagnostics returned by `run_kmeans` alongside the labeled table. -/
structure KMInfo where
  centers : List (List ℚ)
  inertia : ℚ
deriving DecidableEq

/-- A feature row with its `cluster_id` column attached. -/
structure LabeledRow where
  feature : UserFeature
  cluster_id : ℕ
deriving DecidableEq

/-- Embedding of `run_kmeans`: copy the table, scale the numeric columns, fit
KMeans, and return the copy with the `cluster_id` column added plus centers
and inertia. -/
def runKMeans (sq : ℚ → ℚ) (uf : List UserFeature) (k : ℕ) :
    Except String (List LabeledRow × KMInfo) :=
  match kmeansFit (scaledOf sq uf) k with
  | .error e => .error e
  | .ok (labels, cs, inertia) =>
    .ok ((uf.zip labels).map fun p => ⟨p.1, p.2⟩, ⟨cs, inertia⟩)

/-! ## K-selector (`choose_k_auto`) -/

/-- Python's `x or d` on integers: `0` is falsy. -/
def orDefault (x d : ℤ) : ℤ := if x = 0 then d else x

/-- Integer range `[a, b]`, empty when `b < a` (Python `range(a, b + 1)`). -/
def intRange (a b : ℤ) : List ℤ :=
  (List.range (b + 1 - a).toNat).map fun i : ℕ => a + (i : ℤ)

/-- Candidate cluster counts evaluated by `choose_k_auto`:
`effective_k_min = max(2, k_min or 2)`,
`effective_k_max = max(effective_k_min, min(k_max or 8, n_samples - 1, 10))`,
every `k` in the inclusive range, skipping `k < 2`. -/
def candidateKs (n : ℕ) (kmin kmax : ℤ) : List ℤ :=
  let efmin := max 2 (orDefault kmin 2)
  let efmax := max efmin (min (min (orDefault kmax 8) ((n : ℤ) - 1)) 10)
  (intRange efmin efmax).filter fun k => ¬k < 2

/-- One `scores` entry of `choose_k_auto`. -/
structure KScore where
  k : ℕ
  inertia : ℚ
  silhouette : Option ℚ
  ch : Option ℚ
  dbi : Option ℚ
deriving DecidableEq

/-- Embedding of the inner `pick_best`: the K maximizing silhouette when any is
defined, else (multi-metric only) the K maximizing Calinski-Harabasz, else
(multi-metric only) the K minimizing Davies-Bouldin, else the K minimizing
inertia; Python `max`/`min` keep the first optimum, hence the smallest K. -/
def pickBest (multi : Bool) (scores : List KScore) : Option (KScore × String) :=
  match maxByKey (fun s => s.silhouette.getD 0)
      (scores.filter fun s => s.silhouette.isSome) with
  | some s => some (s, "silhouette")
  | none =>
    match (if multi then
        maxByKey (fun s => s.ch.getD 0) (scores.filter fun s => s.ch.isSome)
      else none) with
    | some s => some (s, "calinski_harabasz")
    | none =>
      match (if multi then
          minByKey (fun s => s.dbi.getD 0) (scores.filter fun s => s.dbi.isSome)
        else none) with
      | some s => some (s, "davies_bouldin")
      | none => (minByKey (fun s => s.inertia) scores).map fun s => (s, "inertia")

/-- Score record for one candidate `k`: fit the engine, then silhouette (only
when the fit produced at least two distinct labels, else `None`), and the two
extra metrics only in multi-metric mode.  The sklearn metric functions are
external and taken as parameters returning `none` where the library call would
raise. -/
def evalCandidate (sil ch dbi : List (List ℚ) → List ℕ → Option ℚ) (multi : Bool)
    (scaled : List (List ℚ)) (k : ℕ) : Except String KScore :=
  match kmeansFit scaled k with
  | .error e => .error e
  | .ok (labels, _, inertia) =>
    .ok { k := k
          inertia := inertia
          silhouette := if labels.dedup.length > 1 then sil scaled labels else none
          ch := if multi then ch scaled labels else none
          dbi := if multi then dbi scaled labels else none }

/-- Error message raised by `choose_k_auto` on fewer than two entities. -/
def tooFewMsg : String := "样本太少，无法分群（至少2个用户）。"

/-- The scoring loop of `choose_k_auto`: evaluate every candidate K in order,
collecting the `scores` list; an exception from any fit propagates. -/
def evalScores (sil ch dbi : List (List ℚ) → List ℕ → Option ℚ) (multi : Bool)
    (scaled : List (List ℚ)) : List ℤ → Except String (List KScore)
  | [] => .ok []
  | k :: ks =>
    match evalCandidate sil ch dbi multi scaled k.toNat with
    | .error e => .error e
    | .ok s =>
      match evalScores sil ch dbi multi scaled ks with
      | .error e => .error e
      | .ok ss => .ok (s :: ss)

/-- Embedding of `choose_k_auto`: guard against fewer than two samples, score
every candidate K on the scaled matrix, and select via `pick_best`. -/
def chooseKAuto (sil ch dbi : List (List ℚ) → List ℕ → Option ℚ) (sq : ℚ → ℚ)
    (uf : List UserFeature) (kmin kmax : ℤ) (multi : Bool) :
    Except String (ℕ × List KScore × String) :=
  if uf.length < 2 then .error tooFewMsg
  else
    match evalScores sil ch dbi multi (scaledOf sq uf)
        (candidateKs uf.length kmin kmax) with
    | .error e => .error e
    | .ok scores =>
      match pickBest multi scores with
      | some (best, method) => .ok (best.k, scores, method)
      | none => .error "no candidate scores"

/-! ## Summary builder (`make_cluster_tags`) -/

/-- Action tag of a high-value cluster. -/
def tagHighValue : String := "高价值：会员权益+定向优惠"

/-- Action tag of a high-frequency cluster. -/
def tagHighFreq : String := "高频：推送订阅与包月券"

/-- Action tag of an ordinary cluster. -/
def tagGeneral : String := "普通：新品推荐+优惠券拉新"

/-- Rows of one cluster (grouping preserves row order inside the group). -/
def clusterRows (clustered : List LabeledRow) (cid : ℕ) : List LabeledRow :=
  clustered.filter fun r => r.cluster_id = cid

/-- Mean `total_amount` over one cluster's members. -/
def clusterMeanTotal (clustered : List LabeledRow) (cid : ℕ) : ℚ :=
  meanQ ((clusterRows clustered cid).map fun r => r.feature.total_amount)

/-- Mean `order_count` over one cluster's members. -/
def clusterMeanOrders (clustered : List LabeledRow) (cid : ℕ) : ℚ :=
  meanQ ((clusterRows clustered cid).map fun r => (r.feature.order_count : ℚ))

/-- Global mean `total_amount` over all labeled rows. -/
def globalMeanTotal (clustered : List LabeledRow) : ℚ :=
  meanQ (clustered.map fun r => r.feature.total_amount)

/-- Global mean `order_count` over all labeled rows. -/
def globalMeanOrders (clustered : List LabeledRow) : ℚ :=
  meanQ (clustered.map fun r => (r.feature.order_count : ℚ))

/-- Pandas `Series.mode().iat[0]` over string values: the most frequent value,
ties resolved towards the smallest value (`mode` returns its answers sorted);
empty input yields the empty string. -/
def pandasMode (l : List String) : String :=
  match maxByKey (fun v => (l.count v : ℚ))
      (List.insertionSort (fun a b => strLe a b = true) l.dedup) with
  | some v => v
  | none => ""

/-- One record of the summary list. -/
structure ClusterSummary where
  cluster_id : ℕ
  size : ℕ
  avg_amount : ℚ
  avg_order_count : ℚ
  top_category : String
  top_channel : String
  top_device : String
  action : String
deriving DecidableEq

/-- Summary of one cluster, including the action tag chosen by the fixed rule
order of `make_cluster_tags` (strict comparisons against the global means). -/
def mkSummary (clustered : List LabeledRow) (cid : ℕ) : ClusterSummary :=
  let g := clusterRows clustered cid
  { cluster_id := cid
    size := g.length
    avg_amount := clusterMeanTotal clustered cid
    avg_order_count := clusterMeanOrders clustered cid
    top_category := pandasMode (g.map fun r => r.feature.top_category)
    top_channel := pandasMode (g.map fun r => r.feature.top_channel)
    top_device := pandasMode (g.map fun r => r.feature.top_device)
    action :=
      if clusterMeanTotal clustered cid > globalMeanTotal clustered then tagHighValue
      else if clusterMeanOrders clustered cid > globalMeanOrders clustered then tagHighFreq
      else tagGeneral }

/-- Embedding of `make_cluster_tags`: group by `cluster_id` (pandas sorts the
group keys), summarize each group, and finally sort the summaries by ascending
cluster id (`summaries.sort`). -/
def makeClusterTags (clustered : List LabeledRow) : List ClusterSummary :=
  let keys := List.insertionSort (· ≤ ·) ((clustered.map fun r => r.cluster_id).dedup)
  List.insertionSort (fun a b => a.cluster_id ≤ b.cluster_id)
    (keys.map fun cid => mkSummary clustered cid)

/-! ## Persistence and the pipeline (`process_upload`) -/

/-- A persisted `OrderRecord`. -/
structure OrderRec where
  user_id : String
  order_id : String
  order_time : ℚ
  amount : ℚ
  category : String
  is_promo : Bool
  refund_flag : Bool
  device : String
  channel : String
deriving DecidableEq

/-- A persisted `UserClusterProfile`; the ratio columns hold the percentage
values `ratio * 100` (the two-decimal `Decimal.quantize` rounding of the
source is not modelled, no claim mentions it). -/
structure ProfileRec where
  user_id : String
  cluster_id : ℕ
  total_amount : ℚ
  order_count : ℕ
  avg_amount : ℚ
  promo_ratio_pct : ℚ
  refund_ratio_pct : ℚ
  last_order_time : ℚ
  top_category : String
  top_channel : String
  top_device : String
deriving DecidableEq

/-- The database state the pipeline persists into. -/
structure DB where
  orders : List OrderRec
  profiles : List ProfileRec
deriving DecidableEq

/-- Embedding of `persist_orders` with `ignore_conflicts=True` on the unique
`order_id`: insert each cleaned row whose order id is not present yet. -/
def persistOrders (df : List CleanRow) (db : DB) : DB :=
  { db with
    orders := df.foldl (fun acc r =>
      if acc.any (fun o => o.order_id = r.order_id) then acc
      else acc ++ [⟨r.user_id, r.order_id, r.order_time, r.amount, r.category.getD "",
        r.is_promo ≠ 0, r.refund_flag ≠ 0, r.device.getD "", r.channel.getD ""⟩])
      db.orders }

/-- Profile row written by `persist_cluster_profiles` for one labeled feature row. -/
def toProfile (r : LabeledRow) : ProfileRec :=
  ⟨r.feature.user_id, r.cluster_id, r.feature.total_amount, r.feature.order_count,
    r.feature.avg_amount, r.feature.promo_ratio * 100, r.feature.refund_ratio * 100,
    r.feature.last_order_time, r.feature.top_category, r.feature.top_channel,
    r.feature.top_device⟩

/-- Embedding of `persist_cluster_profiles`: delete every prior profile and
bulk-create the new set. -/
def persistClusterProfiles (clustered : List LabeledRow) (db : DB) : DB :=
  { db with profiles := clustered.map toProfile }

/-- The caller-facing outputs of `process_upload` that the claims mention. -/
structure PipelineOutput where
  summaries : List ClusterSummary
  k_used : ℕ
  method : String
  inertia : ℚ
  scores : List KScore
deriving DecidableEq

/-- Embedding of `process_upload`: ingest, persist orders, build features,
choose K (automatically or manually), cluster, replace the persisted profiles,
and summarize.  The whole function runs under `@transaction.atomic`, so on any
raised error the returned database state is the unchanged input state. -/
def processUpload (sil ch dbi : List (List ℚ) → List ℕ → Option ℚ) (sq : ℚ → ℚ)
    (now : ℚ) (raw : List RawRow) (cluster_count : ℕ) (auto_k auto_k_multi : Bool)
    (kmin kmax : ℤ) (db : DB) : DB × Except String PipelineOutput :=
  match loadCsvToDf raw with
  | .error e => (db, .error e)
  | .ok df =>
    let db1 := persistOrders df db
    let uf := buildUserFeatures now df
    match (if auto_k then chooseKAuto sil ch dbi sq uf kmin kmax auto_k_multi
        else .ok (cluster_count, ([], "manual"))) with
    | .error e => (db, .error e)
    | .ok (k_used, scores, method) =>
      match runKMeans sq uf k_used with
      | .error e => (db, .error e)
      | .ok (clustered, info) =>
        let db2 := persistClusterProfiles clustered db1
        (db2, .ok ⟨makeClusterTags clustered, k_used, method, info.inertia, scores⟩)

attribute [irreducible] scaledRowAux finalCenters

attribute [local semireducible] Rat.add Rat.sub Rat.mul Rat.inv

/-! ## Demonstration inputs used by witnesses -/

/-- A square-root stand-in that is zero everywhere; every scaling claim only
needs `sq 0 = 0`. -/
def sqZero : ℚ → ℚ := fun _ => 0

/-- The three cleaned rows of the sample CSV used throughout the repository's
tests: two orders for `U001` (amounts 259 and 1299, the second promotional)
and one for `U002` (amount 59).  Times are in seconds. -/
def demoDf : List CleanRow :=
  [⟨"U001", "ORD1001", 100, 259, 0, 0, some "Home", some "Mobile", some "App"⟩,
    ⟨"U001", "ORD1055", 200, 1299, 1, 0, some "Electronics", some "Mobile", some "App"⟩,
    ⟨"U002", "ORD1002", 150, 59, 0, 0, some "Grocery", some "Web", some "PC"⟩]

/-- The sample data extended by a third distinct user. -/
def demoDf3 : List CleanRow :=
  demoDf ++ [⟨"U003", "ORD2001", 120, 500, 0, 1, some "Toys", some "Web", some "PC"⟩]

/-- Feature table of the two-user sample (reference time 300). -/
def demoUF : List UserFeature := buildUserFeatures 300 demoDf

/-- Feature table of the three-user sample (reference time 300). -/
def demoUF3 : List UserFeature := buildUserFeatures 300 demoDf3

/-- A labeled feature table with two singleton clusters. -/
def demoClustered : List LabeledRow :=
  [⟨⟨"A", 100, 2, 50, 0, 0, 10, 1, "c", "ch", "d"⟩, 0⟩,
    ⟨⟨"B", 10, 1, 10, 0, 0, 10, 1, "c", "ch", "d"⟩, 1⟩]

/-- Candidate scores for K = 2 and K = 3 where K = 2 has the strictly higher
silhouette but the larger inertia. -/
def demoScores : List KScore :=
  [⟨2, 5, some 1, none, none⟩, ⟨3, 1, some 0, none, none⟩]

/-- A database state holding one profile from a previous run. -/
def demoDB : DB := ⟨[], [⟨"old", 0, 1, 1, 1, 0, 0, 0, "", "", ""⟩]⟩

/-- A categorical column with a missing entry and a count tie between
`"a"` (first encountered) and `"b"`. -/
def demoOpts : List (Option String) :=
  [some "a", none, some "b", some "b", some "a"]

/-! ## Properties of the Python `max`/`min` accumulators -/

theorem foldl_maxStep_mem (f : α → ℚ) :
    ∀ (xs : List α) (b : α), xs.foldl (maxStep f) b ∈ b :: xs
  | [], b => by simp
  | y :: ys, b => by
    have ih := foldl_maxStep_mem f ys (maxStep f b y)
    simp only [List.foldl_cons]
    rcases List.mem_cons.mp ih with h | h
    · rw [h]
      unfold maxStep
      rcases lt_or_le (f b) (f y) with hc | hc
      · rw [if_pos hc]; exact List.mem_cons_of_mem _ (List.mem_cons_self _ _)
      · rw [if_neg (not_lt.mpr hc)]; exact List.mem_cons_self _ _
    · exact List.mem_cons_of_mem _ (List.mem_cons_of_mem _ h)

theorem le_maxStep_left (f : α → ℚ) (b y : α) : f b ≤ f (maxStep f b y) := by
  unfold maxStep
  rcases lt_or_le (f b) (f y) with hc | hc
  · rw [if_pos hc]; exact hc.le
  · rw [if_neg (not_lt.mpr hc)]

theorem le_maxStep_right (f : α → ℚ) (b y : α) : f y ≤ f (maxStep f b y) := by
  unfold maxStep
  rcases lt_or_le (f b) (f y) with hc | hc
  · rw [if_pos hc]
  · rw [if_neg (not_lt.mpr hc)]; exact hc

theorem foldl_maxStep_le (f : α → ℚ) :
    ∀ (xs : List α) (b : α), ∀ z ∈ b :: xs, f z ≤ f (xs.foldl (maxStep f) b)
  | [], b => by simp
  | y :: ys, b => by
    intro z hz
    have ih := foldl_maxStep_le f ys (maxStep f b y)
    simp only [List.foldl_cons]
    rcases List.mem_cons.mp hz with rfl | hz'
    · exact le_trans (le_maxStep_left f z y) (ih _ (List.mem_cons_self _ _))
    rcases List.mem_cons.mp hz' with rfl | hz''
    · exact le_trans (le_maxStep_right f b z) (ih _ (List.mem_cons_self _ _))
    · exact ih _ (List.mem_cons_of_mem _ hz'')

theorem foldl_maxStep_first (f : α → ℚ) (g : α → ℕ) :
    ∀ (xs : List α) (b : α), (b :: xs).Pairwise (fun a a' => g a < g a') →
      ∀ z ∈ b :: xs, f z = f (xs.foldl (maxStep f) b) → g (xs.foldl (maxStep f) b) ≤ g z
  | [], b => by simp
  | y :: ys, b => by
    intro hp z hz hfz
    obtain ⟨hb, hrest⟩ := List.pairwise_cons.mp hp
    obtain ⟨hy, hys⟩ := List.pairwise_cons.mp hrest
    have hby : g b < g y := hb y (List.mem_cons_self _ _)
    have hp' : (maxStep f b y :: ys).Pairwise (fun a a' => g a < g a') := by
      refine List.pairwise_cons.mpr ⟨?_, hys⟩
      intro a ha
      unfold maxStep
      rcases lt_or_le (f b) (f y) with hc | hc
      · rw [if_pos hc]; exact hy a ha
      · rw [if_neg (not_lt.mpr hc)]; exact hb a (List.mem_cons_of_mem _ ha)
    have ih := foldl_maxStep_first f g ys (maxStep f b y) hp'
    have hle := foldl_maxStep_le f ys (maxStep f b y)
    simp only [List.foldl_cons] at hfz ⊢
    rcases List.mem_cons.mp hz with rfl | hz'
    · -- z = b
      rcases lt_or_le (f z) (f y) with hc | hc
      · have h1 : f y ≤ f (ys.foldl (maxStep f) (maxStep f z y)) := by
          have := hle (maxStep f z y) (List.mem_cons_self _ _)
          exact le_trans (le_maxStep_right f z y) this
        exact absurd hfz (ne_of_lt (lt_of_lt_of_le hc h1))
      · have hzy : maxStep f z y = z := if_neg (not_lt.mpr hc)
        exact ih z (by rw [hzy]; exact List.mem_cons_self _ _) hfz
    rcases List.mem_cons.mp hz' with rfl | hz''
    · -- z = y
      rcases lt_or_le (f b) (f z) with hc | hc
      · have hzy : maxStep f b z = z := if_pos hc
        exact ih z (by rw [hzy]; exact List.mem_cons_self _ _) hfz
      · have hzy : maxStep f b z = b := if_neg (not_lt.mpr hc)
        have hfb : f b ≤ f (ys.foldl (maxStep f) (maxStep f b z)) :=
          le_trans (le_maxStep_left f b z) (hle _ (List.mem_cons_self _ _))
        have hbm : f b = f (ys.foldl (maxStep f) (maxStep f b z)) :=
          le_antisymm hfb (hfz ▸ hc)
        exact le_trans (ih b (by rw [hzy]; exact List.mem_cons_self _ _) hbm) hby.le
    · exact ih z (List.mem_cons_of_mem _ hz'') hfz

theorem minStep_le_left (f : α → ℚ) (b y : α) : f (minStep f b y) ≤ f b := by
  unfold minStep
  rcases lt_or_le (f y) (f b) with hc | hc
  · rw [if_pos hc]; exact hc.le
  · rw [if_neg (not_lt.mpr hc)]

theorem minStep_le_right (f : α → ℚ) (b y : α) : f (minStep f b y) ≤ f y := by
  unfold minStep
  rcases lt_or_le (f y) (f b) with hc | hc
  · rw [if_pos hc]
  · rw [if_neg (not_lt.mpr hc)]; exact hc

theorem foldl_minStep_mem (f : α → ℚ) :
    ∀ (xs : List α) (b : α), xs.foldl (minStep f) b ∈ b :: xs
  | [], b => by simp
  | y :: ys, b => by
    have ih := foldl_minStep_mem f ys (minStep f b y)
    simp only [List.foldl_cons]
    rcases List.mem_cons.mp ih with h | h
    · rw [h]
      unfold minStep
      rcases lt_or_le (f y) (f b) with hc | hc
      · rw [if_pos hc]; exact List.mem_cons_of_mem _ (List.mem_cons_self _ _)
      · rw [if_neg (not_lt.mpr hc)]; exact List.mem_cons_self _ _
    · exact List.mem_cons_of_mem _ (List.mem_cons_of_mem _ h)

theorem foldl_minStep_le (f : α → ℚ) :
    ∀ (xs : List α) (b : α), ∀ z ∈ b :: xs, f (xs.foldl (minStep f) b) ≤ f z
  | [], b => by simp
  | y :: ys, b => by
    intro z hz
    have ih := foldl_minStep_le f ys (minStep f b y)
    simp only [List.foldl_cons]
    rcases List.mem_cons.mp hz with rfl | hz'
    · exact le_trans (ih _ (List.mem_cons_self _ _)) (minStep_le_left f z y)
    rcases List.mem_cons.mp hz' with rfl | hz''
    · exact le_trans (ih _ (List.mem_cons_self _ _)) (minStep_le_right f b z)
    · exact ih _ (List.mem_cons_of_mem _ hz'')

theorem foldl_minStep_first (f : α → ℚ) (g : α → ℕ) :
    ∀ (xs : List α) (b : α), (b :: xs).Pairwise (fun a a' => g a < g a') →
      ∀ z ∈ b :: xs, f z = f (xs.foldl (minStep f) b) → g (xs.foldl (minStep f) b) ≤ g z
  | [], b => by simp
  | y :: ys, b => by
    intro hp z hz hfz
    obtain ⟨hb, hrest⟩ := List.pairwise_cons.mp hp
    obtain ⟨hy, hys⟩ := List.pairwise_cons.mp hrest
    have hby : g b < g y := hb y (List.mem_cons_self _ _)
    have hp' : (minStep f b y :: ys).Pairwise (fun a a' => g a < g a') := by
      refine List.pairwise_cons.mpr ⟨?_, hys⟩
      intro a ha
      unfold minStep
      rcases lt_or_le (f y) (f b) with hc | hc
      · rw [if_pos hc]; exact hy a ha
      · rw [if_neg (not_lt.mpr hc)]; exact hb a (List.mem_cons_of_mem _ ha)
    have ih := foldl_minStep_first f g ys (minStep f b y) hp'
    have hle := foldl_minStep_le f ys (minStep f b y)
    simp only [List.foldl_cons] at hfz ⊢
    rcases List.mem_cons.mp hz with rfl | hz'
    · -- z = b
      rcases lt_or_le (f y) (f z) with hc | hc
      · have h1 : f (ys.foldl (minStep f) (minStep f z y)) ≤ f y :=
          le_trans (hle _ (List.mem_cons_self _ _)) (minStep_le_right f z y)
        exact absurd hfz.symm (ne_of_lt (lt_of_le_of_lt h1 hc))
      · have hzy : minStep f z y = z := if_neg (not_lt.mpr hc)
        exact ih z (by rw [hzy]; exact List.mem_cons_self _ _) hfz
    rcases List.mem_cons.mp hz' with rfl | hz''
    · -- z = y
      rcases lt_or_le (f z) (f b) with hc | hc
      · have hzy : minStep f b z = z := if_pos hc
        exact ih z (by rw [hzy]; exact List.mem_cons_self _ _) hfz
      · have hzy : minStep f b z = b := if_neg (not_lt.mpr hc)
        have hfb : f (ys.foldl (minStep f) (minStep f b z)) ≤ f b :=
          le_trans (hle _ (List.mem_cons_self _ _)) (minStep_le_left f b z)
        have hbm : f b = f (ys.foldl (minStep f) (minStep f b z)) :=
          le_antisymm (hfz ▸ hc) hfb
        exact le_trans (ih b (by rw [hzy]; exact List.mem_cons_self _ _) hbm) hby.le
    · exact ih z (List.mem_cons_of_mem _ hz'') hfz

theorem maxByKey_isSome (f : α → ℚ) {l : List α} (h : l ≠ []) :
    ∃ m, maxByKey f l = some m := by
  cases l with
  | nil => exact absurd rfl h
  | cons x xs => exact ⟨xs.foldl (maxStep f) x, rfl⟩

theorem maxByKey_mem {f : α → ℚ} {l : List α} {m : α} (h : maxByKey f l = some m) :
    m ∈ l := by
  cases l with
  | nil => simp [maxByKey] at h
  | cons x xs =>
    obtain rfl : xs.foldl (maxStep f) x = m := Option.some.inj h
    exact foldl_maxStep_mem f xs x

theorem maxByKey_le {f : α → ℚ} {l : List α} {m : α} (h : maxByKey f l = some m) :
    ∀ z ∈ l, f z ≤ f m := by
  cases l with
  | nil => simp
  | cons x xs =>
    obtain rfl : xs.foldl (maxStep f) x = m := Option.some.inj h
    exact foldl_maxStep_le f xs x

theorem maxByKey_first {f : α → ℚ} (g : α → ℕ) {l : List α} {m : α}
    (h : maxByKey f l = some m) (hp : l.Pairwise fun a b => g a < g b) :
    ∀ z ∈ l, f z = f m → g m ≤ g z := by
  cases l with
  | nil => simp
  | cons x xs =>
    obtain rfl : xs.foldl (maxStep f) x = m := Option.some.inj h
    exact foldl_maxStep_first f g xs x hp

theorem minByKey_isSome (f : α → ℚ) {l : List α} (h : l ≠ []) :
    ∃ m, minByKey f l = some m := by
  cases l with
  | nil => exact absurd rfl h
  | cons x xs => exact ⟨xs.foldl (minStep f) x, rfl⟩

theorem minByKey_mem {f : α → ℚ} {l : List α} {m : α} (h : minByKey f l = some m) :
    m ∈ l := by
  cases l with
  | nil => simp [minByKey] at h
  | cons x xs =>
    obtain rfl : xs.foldl (minStep f) x = m := Option.some.inj h
    exact foldl_minStep_mem f xs x

theorem minByKey_le {f : α → ℚ} {l : List α} {m : α} (h : minByKey f l = some m) :
    ∀ z ∈ l, f m ≤ f z := by
  cases l with
  | nil => simp
  | cons x xs =>
    obtain rfl : xs.foldl (minStep f) x = m := Option.some.inj h
    exact foldl_minStep_le f xs x

theorem minByKey_first {f : α → ℚ} (g : α → ℕ) {l : List α} {m : α}
    (h : minByKey f l = some m) (hp : l.Pairwise fun a b => g a < g b) :
    ∀ z ∈ l, f z = f m → g m ≤ g z := by
  cases l with
  | nil => simp
  | cons x xs =>
    obtain rfl : xs.foldl (minStep f) x = m := Option.some.inj h
    exact foldl_minStep_first f g xs x hp

/-! ## Properties of `firstOccs` (Counter insertion order) -/

theorem firstOccsAux_sub [DecidableEq α] :
    ∀ (l seen : List α), ∀ a ∈ firstOccsAux seen l, a ∈ l ∧ a ∉ seen
  | [], _ => by simp [firstOccsAux]
  | x :: xs, seen => by
    intro a ha
    unfold firstOccsAux at ha
    by_cases hx : x ∈ seen
    · rw [if_pos hx] at ha
      obtain ⟨h1, h2⟩ := firstOccsAux_sub xs seen a ha
      exact ⟨List.mem_cons_of_mem _ h1, h2⟩
    · rw [if_neg hx] at ha
      rcases List.mem_cons.mp ha with rfl | ha'
      · exact ⟨List.mem_cons_self _ _, hx⟩
      · obtain ⟨h1, h2⟩ := firstOccsAux_sub xs (x :: seen) a ha'
        exact ⟨List.mem_cons_of_mem _ h1, fun hs => h2 (List.mem_cons_of_mem _ hs)⟩

theorem firstOccsAux_mem [DecidableEq α] :
    ∀ (l seen : List α), ∀ a ∈ l, a ∉ seen → a ∈ firstOccsAux seen l
  | [], _ => by simp
  | x :: xs, seen => by
    intro a ha hs
    unfold firstOccsAux
    by_cases hx : x ∈ seen
    · rw [if_pos hx]
      rcases List.mem_cons.mp ha with rfl | ha'
      · exact absurd hx hs
      · exact firstOccsAux_mem xs seen a ha' hs
    · rw [if_neg hx]
      rcases List.mem_cons.mp ha with rfl | ha'
      · exact List.mem_cons_self _ _
      · by_cases hax : a = x
        · exact hax ▸ List.mem_cons_self _ _
        · exact List.mem_cons_of_mem _
            (firstOccsAux_mem xs (x :: seen) a ha'
              (fun hmem => (List.mem_cons.mp hmem).elim hax hs))

theorem mem_firstOccs [DecidableEq α] (l : List α) (a : α) :
    a ∈ firstOccs l ↔ a ∈ l := by
  constructor
  · intro h; exact (firstOccsAux_sub l [] a h).1
  · intro h; exact firstOccsAux_mem l [] a h (List.not_mem_nil a)

theorem firstOccsAux_indexOf_pairwise [DecidableEq α] :
    ∀ (l seen : List α),
      (firstOccsAux seen l).Pairwise fun a b => l.indexOf a < l.indexOf b
  | [], _ => by simp [firstOccsAux]
  | x :: xs, seen => by
    unfold firstOccsAux
    by_cases hx : x ∈ seen
    · rw [if_pos hx]
      refine (firstOccsAux_indexOf_pairwise xs seen).imp_of_mem ?_
      intro a b ha hb hab
      have hax : a ≠ x := fun h => (firstOccsAux_sub xs seen a ha).2 (h ▸ hx)
      have hbx : b ≠ x := fun h => (firstOccsAux_sub xs seen b hb).2 (h ▸ hx)
      rw [List.indexOf_cons_ne _ (Ne.symm hax), List.indexOf_cons_ne _ (Ne.symm hbx)]
      exact Nat.succ_lt_succ hab
    · rw [if_neg hx]
      refine List.pairwise_cons.mpr ⟨?_, ?_⟩
      · intro b hb
        have hbx : b ≠ x := fun h =>
          (firstOccsAux_sub xs (x :: seen) b hb).2 (h ▸ List.mem_cons_self _ _)
        rw [List.indexOf_cons_self, List.indexOf_cons_ne _ (Ne.symm hbx)]
        exact Nat.succ_pos _
      · refine (firstOccsAux_indexOf_pairwise xs (x :: seen)).imp_of_mem ?_
        intro a b ha hb hab
        have hax : a ≠ x := fun h =>
          (firstOccsAux_sub xs (x :: seen) a ha).2 (h ▸ List.mem_cons_self _ _)
        have hbx : b ≠ x := fun h =>
          (firstOccsAux_sub xs (x :: seen) b hb).2 (h ▸ List.mem_cons_self _ _)
        rw [List.indexOf_cons_ne _ (Ne.symm hax), List.indexOf_cons_ne _ (Ne.symm hbx)]
        exact Nat.succ_lt_succ hab

theorem firstOccs_indexOf_pairwise [DecidableEq α] (l : List α) :
    (firstOccs l).Pairwise fun a b => l.indexOf a < l.indexOf b :=
  firstOccsAux_indexOf_pairwise l []

/-! ## Counting partitions -/

theorem sum_map_add_nat (D : List κ) (f g : κ → ℕ) :
    (D.map fun k => f k + g k).sum = (D.map f).sum + (D.map g).sum := by
  induction D with
  | nil => rfl
  | cons x xs ih =>
    simp only [List.map_cons, List.sum_cons, ih]
    omega

theorem sum_indicator_one {D : List ℕ} (hD : D.Nodup) {a : ℕ} (ha : a ∈ D) :
    (D.map fun k => if a = k then 1 else 0).sum = 1 := by
  induction D with
  | nil => simp at ha
  | cons x xs ih =>
    obtain ⟨hx, hxs⟩ := List.nodup_cons.mp hD
    rw [List.map_cons, List.sum_cons]
    rcases List.mem_cons.mp ha with rfl | ha'
    · rw [if_pos rfl]
      have hz : (xs.map fun k => if a = k then 1 else 0).sum = 0 :=
        List.sum_eq_zero fun y hy => by
          obtain ⟨k, hk, rfl⟩ := List.mem_map.mp hy
          exact if_neg fun h => hx (by rw [h]; exact hk)
      rw [hz]
    · have hax : a ≠ x := fun h => hx (by rw [← h]; exact ha')
      rw [if_neg hax, ih hxs ha']

theorem sum_filter_length (key : β → ℕ) :
    ∀ (l : List β) (D : List ℕ), D.Nodup → (∀ b ∈ l, key b ∈ D) →
      (D.map fun k => (l.filter fun b => key b = k).length).sum = l.length
  | [], D => by
    intro _ _
    simp only [List.filter_nil, List.length_nil]
    exact List.sum_eq_zero fun y hy => by
      obtain ⟨k, _, rfl⟩ := List.mem_map.mp hy
      rfl
  | x :: l, D => by
    intro hD hcov
    have hcov' : ∀ b ∈ l, key b ∈ D := fun b hb => hcov b (List.mem_cons_of_mem _ hb)
    have ih := sum_filter_length key l D hD hcov'
    have hsplit : ∀ k : ℕ, ((x :: l).filter fun b => key b = k).length
        = (if key x = k then 1 else 0) + (l.filter fun b => key b = k).length := by
      intro k
      by_cases hxk : key x = k
      · rw [if_pos hxk, List.filter_cons_of_pos (by simp [hxk])]
        simp [Nat.add_comm]
      · rw [if_neg hxk, List.filter_cons_of_neg (by simp [hxk])]
        simp
    rw [List.map_congr_left fun k _ => hsplit k, sum_map_add_nat,
      sum_indicator_one hD (hcov x (List.mem_cons_self _ _)), ih]
    simp [Nat.add_comm]

/-! ## Candidate range facts -/

theorem mem_intRange {a b x : ℤ} (h : x ∈ intRange a b) : a ≤ x ∧ x ≤ b := by
  unfold intRange at h
  obtain ⟨i, hi, rfl⟩ := List.mem_map.mp h
  rw [List.mem_range] at hi
  omega

theorem self_mem_intRange {a b : ℤ} (hab : a ≤ b) : a ∈ intRange a b := by
  unfold intRange
  refine List.mem_map.mpr ⟨0, ?_, by omega⟩
  rw [List.mem_range]
  omega

theorem candidateKs_ge {n : ℕ} {kmin kmax : ℤ} :
    ∀ K ∈ candidateKs n kmin kmax, 2 ≤ K := by
  intro K hK
  unfold candidateKs at hK
  have h := List.of_mem_filter hK
  simp only [decide_eq_true_eq] at h
  omega

theorem candidateKs_le {n : ℕ} {kmin kmax : ℤ} :
    ∀ K ∈ candidateKs n kmin kmax,
      K ≤ max (max 2 (orDefault kmin 2)) (min (min (orDefault kmax 8) ((n : ℤ) - 1)) 10) := by
  intro K hK
  unfold candidateKs at hK
  exact (mem_intRange (List.mem_of_mem_filter hK)).2

theorem candidateKs_two_three {n : ℕ} (hn : 4 ≤ n) : candidateKs n 2 3 = [2, 3] := by
  have hn' : (4 : ℤ) ≤ (n : ℤ) := by exact_mod_cast hn
  have hmin : min (min (orDefault 3 8) ((n : ℤ) - 1)) 10 = 3 := by
    unfold orDefault
    rw [if_neg (by norm_num)]
    rw [min_eq_left (by omega : (3 : ℤ) ≤ (n : ℤ) - 1)]
    norm_num
  unfold candidateKs
  rw [hmin]
  decide

/-! ## KMeans engine facts -/

theorem nearestIdx_lt (x : List ℚ) :
    ∀ cs : List (List ℚ), cs ≠ [] → nearestIdx x cs < cs.length
  | [], h => absurd rfl h
  | [_], _ => by simp [nearestIdx]
  | c :: c₂ :: cs, _ => by
    have ih := nearestIdx_lt x (c₂ :: cs) (by simp)
    simp only [nearestIdx]
    by_cases hc :
        sqDistL x ((c₂ :: cs).getD (nearestIdx x (c₂ :: cs)) []) < sqDistL x c
    · rw [if_pos hc]
      simpa [List.length_cons] using Nat.succ_lt_succ ih
    · rw [if_neg hc]
      simp

theorem nearestIdx_min (x : List ℚ) :
    ∀ cs : List (List ℚ), ∀ c ∈ cs,
      sqDistL x (cs.getD (nearestIdx x cs) []) ≤ sqDistL x c
  | [] => by simp
  | [c₀] => by
    intro c hc
    rcases List.mem_singleton.mp hc with rfl
    simp [nearestIdx]
  | c₀ :: c₁ :: cs => by
    intro c hc
    have ih := nearestIdx_min x (c₁ :: cs)
    simp only [nearestIdx]
    by_cases hcond :
        sqDistL x ((c₁ :: cs).getD (nearestIdx x (c₁ :: cs)) []) < sqDistL x c₀
    · rw [if_pos hcond]
      rcases List.mem_cons.mp hc with rfl | hc'
      · simpa [List.getD_cons_succ] using hcond.le
      · simpa [List.getD_cons_succ] using ih c hc'
    · rw [if_neg hcond]
      rcases List.mem_cons.mp hc with rfl | hc'
      · simp [List.getD_cons_zero]
      · simp only [List.getD_cons_zero]
        exact le_trans (not_lt.mp hcond) (ih c hc')

theorem updateCenters_length (pts : List (List ℚ)) (labels : List ℕ)
    (cs : List (List ℚ)) : (updateCenters pts labels cs).length = cs.length := by
  simp [updateCenters]

theorem lloyd_length (pts : List (List ℚ)) :
    ∀ (n : ℕ) (cs : List (List ℚ)), (lloyd pts n cs).length = cs.length
  | 0, _ => rfl
  | n + 1, cs => by
    rw [lloyd, lloyd_length pts n _, updateCenters_length]

theorem finalCenters_length {pts : List (List ℚ)} {k : ℕ} (h : k ≤ pts.length) :
    (finalCenters pts k).length = k := by
  unfold finalCenters
  rw [lloyd_length, List.length_take, Nat.min_eq_left h]

theorem kmeansFit_eq {pts : List (List ℚ)} {k : ℕ} (h0 : k ≠ 0) (h1 : k ≤ pts.length) :
    kmeansFit pts k = .ok (pts.map fun p => nearestIdx p (finalCenters pts k),
      finalCenters pts k,
      ((pts.zip (pts.map fun p => nearestIdx p (finalCenters pts k))).map
        fun pl => sqDistL pl.1 ((finalCenters pts k).getD pl.2 [])).sum) := by
  unfold kmeansFit
  rw [if_neg h0, if_neg (by simpa using not_lt.mpr h1)]

theorem kmeansFit_error {pts : List (List ℚ)} {k : ℕ} (h : k = 0 ∨ pts.length < k) :
    ∃ e, kmeansFit pts k = .error e := by
  unfold kmeansFit
  rcases h with rfl | hlt
  · exact ⟨_, by rw [if_pos rfl]⟩
  · have h0 : k ≠ 0 := by omega
    exact ⟨_, by rw [if_neg h0, if_pos hlt]⟩

/-! ## Zip and scaling plumbing -/

theorem zip_map_map (f : α → β) (g : α → γ) :
    ∀ l : List α, (l.map f).zip (l.map g) = l.map fun x => (f x, g x)
  | [] => rfl
  | x :: xs => by
    simp only [List.map_cons, List.zip_cons_cons, zip_map_map f g xs]

theorem zip_map_self (h : α → β) (l : List α) :
    l.zip (l.map h) = l.map fun x => (x, h x) := by
  have := zip_map_map id h l
  simpa using this

theorem scaledOf_eq (sq : ℚ → ℚ) (uf : List UserFeature) :
    scaledOf sq uf = uf.map fun f => scaledRowAux sq (featureMatrix uf) (toNumericRow f) := by
  unfold scaledOf standardize
  conv_lhs => rw [featureMatrix, List.map_map]
  rfl

theorem scaledOf_length (sq : ℚ → ℚ) (uf : List UserFeature) :
    (scaledOf sq uf).length = uf.length := by
  simp [scaledOf, standardize, featureMatrix]

theorem kmeansFit_ok_cond {pts : List (List ℚ)} {k : ℕ} {labels : List ℕ}
    {cs : List (List ℚ)} {inertia : ℚ}
    (h : kmeansFit pts k = .ok (labels, cs, inertia)) :
    k ≠ 0 ∧ k ≤ pts.length ∧
      labels = (pts.map fun p => nearestIdx p (finalCenters pts k)) ∧
      cs = finalCenters pts k := by
  by_cases h0 : k = 0
  · subst h0
    unfold kmeansFit at h
    rw [if_pos rfl] at h
    cases h
  by_cases hlt : pts.length < k
  · unfold kmeansFit at h
    rw [if_neg h0, if_pos (by simpa using hlt)] at h
    cases h
  · have h1 : k ≤ pts.length := not_lt.mp hlt
    rw [kmeansFit_eq h0 h1] at h
    obtain ⟨hL, hrest⟩ := Prod.mk.inj (Except.ok.inj h)
    obtain ⟨hC, _⟩ := Prod.mk.inj hrest
    exact ⟨h0, h1, hL.symm, hC.symm⟩

theorem runKMeans_shape {sq : ℚ → ℚ} {uf : List UserFeature} {k : ℕ}
    {out : List LabeledRow} {info : KMInfo}
    (h : runKMeans sq uf k = .ok (out, info)) :
    k ≠ 0 ∧ k ≤ uf.length ∧
      info.centers = finalCenters (scaledOf sq uf) k ∧
      out = uf.map fun u =>
        ⟨u, nearestIdx (scaledRowAux sq (featureMatrix uf) (toNumericRow u))
          (finalCenters (scaledOf sq uf) k)⟩ := by
  unfold runKMeans at h
  rcases hfit : kmeansFit (scaledOf sq uf) k with e | ⟨labels, cs, inertia⟩
  · rw [hfit] at h; cases h
  · rw [hfit] at h
    obtain ⟨h0, h1, hlab, hcs⟩ := kmeansFit_ok_cond hfit
    obtain ⟨hout, hinfo⟩ := Prod.mk.inj (Except.ok.inj h)
    refine ⟨h0, by rw [scaledOf_length] at h1; exact h1, ?_, ?_⟩
    · rw [← hinfo, hcs]
    · rw [← hout, hlab]
      have hmap : (scaledOf sq uf).map
          (fun p => nearestIdx p (finalCenters (scaledOf sq uf) k))
          = uf.map fun u =>
            nearestIdx (scaledRowAux sq (featureMatrix uf) (toNumericRow u))
              (finalCenters (scaledOf sq uf) k) := by
        rw [scaledOf_eq, List.map_map]
        apply List.map_congr_left
        intro u _
        simp only [Function.comp_apply]
      rw [hmap, zip_map_self, List.map_map]
      apply List.map_congr_left
      intro u _
      simp only [Function.comp_apply]

theorem runKMeans_isOk {sq : ℚ → ℚ} {uf : List UserFeature} {k : ℕ} (h0 : k ≠ 0)
    (h1 : k ≤ uf.length) : exceptIsOk (runKMeans sq uf k) = true := by
  have h1' : k ≤ (scaledOf sq uf).length := by rw [scaledOf_length]; exact h1
  unfold runKMeans
  rw [kmeansFit_eq h0 h1']
  rfl

theorem runKMeans_error {sq : ℚ → ℚ} {uf : List UserFeature} {k : ℕ}
    (h : k = 0 ∨ uf.length < k) : ∃ e, runKMeans sq uf k = .error e := by
  have h' : k = 0 ∨ (scaledOf sq uf).length < k := by
    rw [scaledOf_length]; exact h
  obtain ⟨e, he⟩ := kmeansFit_error h'
  exact ⟨e, by unfold runKMeans; rw [he]⟩

theorem runKMeans_labels_lt {sq : ℚ → ℚ} {uf : List UserFeature} {k : ℕ}
    {out : List LabeledRow} {info : KMInfo}
    (h : runKMeans sq uf k = .ok (out, info)) : ∀ r ∈ out, r.cluster_id < k := by
  obtain ⟨h0, h1, _, hout⟩ := runKMeans_shape h
  intro r hr
  rw [hout] at hr
  obtain ⟨u, _, rfl⟩ := List.mem_map.mp hr
  have hlen : (finalCenters (scaledOf sq uf) k).length = k :=
    finalCenters_length (by rw [scaledOf_length]; exact h1)
  have hne : finalCenters (scaledOf sq uf) k ≠ [] := by
    intro hnil
    rw [hnil] at hlen
    exact h0 hlen.symm
  have hlt := nearestIdx_lt (scaledRowAux sq (featureMatrix uf) (toNumericRow u)) _ hne
  rw [hlen] at hlt
  exact hlt

/-! ## Summary builder facts -/

theorem makeClusterTags_perm (clustered : List LabeledRow) :
    (makeClusterTags clustered).Perm
      (((clustered.map fun r => r.cluster_id).dedup).map fun cid =>
        mkSummary clustered cid) := by
  unfold makeClusterTags
  exact (List.perm_insertionSort _ _).trans
    ((List.perm_insertionSort _ _).map fun cid => mkSummary clustered cid)

theorem mem_makeClusterTags {clustered : List LabeledRow} {s : ClusterSummary} :
    s ∈ makeClusterTags clustered ↔
      ∃ cid ∈ (clustered.map fun r => r.cluster_id).dedup,
        s = mkSummary clustered cid := by
  rw [(makeClusterTags_perm clustered).mem_iff, List.mem_map]
  constructor
  · rintro ⟨cid, hcid, h⟩
    exact ⟨cid, hcid, h.symm⟩
  · rintro ⟨cid, hcid, h⟩
    exact ⟨cid, hcid, h.symm⟩

theorem makeClusterTags_sizes_sum (clustered : List LabeledRow) :
    ((makeClusterTags clustered).map fun s => s.size).sum = clustered.length := by
  rw [((makeClusterTags_perm clustered).map fun s => s.size).sum_eq, List.map_map]
  have hsz : (((clustered.map fun r => r.cluster_id).dedup).map
      ((fun s => s.size) ∘ fun cid => mkSummary clustered cid))
      = ((clustered.map fun r => r.cluster_id).dedup).map
        (fun cid => (clustered.filter fun r => r.cluster_id = cid).length) := rfl
  rw [hsz]
  exact sum_filter_length (fun r => r.cluster_id) clustered _ (List.nodup_dedup _)
    fun b hb => List.mem_dedup.mpr (List.mem_map.mpr ⟨b, hb, rfl⟩)

theorem makeClusterTags_ids_nodup (clustered : List LabeledRow) :
    ((makeClusterTags clustered).map fun s => s.cluster_id).Nodup := by
  have hperm := (makeClusterTags_perm clustered).map fun s => s.cluster_id
  rw [List.map_map] at hperm
  have hid : (((clustered.map fun r => r.cluster_id).dedup).map
      ((fun s => s.cluster_id) ∘ fun cid => mkSummary clustered cid))
      = (clustered.map fun r => r.cluster_id).dedup := by
    rw [show ((fun s : ClusterSummary => s.cluster_id) ∘ fun cid =>
      mkSummary clustered cid) = id from rfl, List.map_id]
  rw [hid] at hperm
  exact hperm.nodup_iff.mpr (List.nodup_dedup _)

theorem makeClusterTags_sorted (clustered : List LabeledRow) :
    (makeClusterTags clustered).Pairwise fun a b => a.cluster_id < b.cluster_id := by
  have hs : (makeClusterTags clustered).Pairwise fun a b =>
      a.cluster_id ≤ b.cluster_id := by
    unfold makeClusterTags
    haveI ht : IsTotal ClusterSummary fun a b => a.cluster_id ≤ b.cluster_id :=
      ⟨fun a b => Nat.le_total a.cluster_id b.cluster_id⟩
    haveI htr : IsTrans ClusterSummary fun a b => a.cluster_id ≤ b.cluster_id :=
      ⟨fun _ _ _ hab hbc => Nat.le_trans hab hbc⟩
    exact List.sorted_insertionSort _ _
  have hne : (makeClusterTags clustered).Pairwise fun a b =>
      a.cluster_id ≠ b.cluster_id :=
    List.pairwise_map.mp (makeClusterTags_ids_nodup clustered)
  exact (hs.and hne).imp fun h => lt_of_le_of_ne h.1 h.2

/-- C7: in every summary list, each cluster's action tag follows the fixed rule
order (high-value when the cluster's mean total amount strictly exceeds the
global mean, else high-frequency when its mean event count strictly exceeds the
global mean, else general), and the summaries are in strictly ascending
cluster-id order. -/
theorem c7_summary_tags (clustered : List LabeledRow) :
    ((makeClusterTags clustered).Pairwise fun a b => a.cluster_id < b.cluster_id) ∧
    ∀ s ∈ makeClusterTags clustered,
      s.action =
        if clusterMeanTotal clustered s.cluster_id > globalMeanTotal clustered
          then tagHighValue
        else if clusterMeanOrders clustered s.cluster_id > globalMeanOrders clustered
          then tagHighFreq
        else tagGeneral := by
  refine ⟨makeClusterTags_sorted clustered, ?_⟩
  intro s hs
  obtain ⟨cid, _, rfl⟩ := mem_makeClusterTags.mp hs
  rfl

/-- C7 witness: the rule evaluated on a concrete two-cluster table. -/
theorem c7_summary_tags_witness :
    (mkSummary demoClustered 0).action =
      if clusterMeanTotal demoClustered (mkSummary demoClustered 0).cluster_id >
          globalMeanTotal demoClustered then tagHighValue
      else if clusterMeanOrders demoClustered (mkSummary demoClustered 0).cluster_id >
          globalMeanOrders demoClustered then tagHighFreq
      else tagGeneral :=
  (c7_summary_tags demoClustered).2 (mkSummary demoClustered 0) (by decide)

/-- C8: for at least two entities and a requested K between 2 and N − 1, the
engine succeeds, labels every entity with a cluster id below K, and the
summary sizes add up to the number of entities. -/
theorem c8_partition (sq : ℚ → ℚ) (uf : List UserFeature) (k : ℕ)
    (hn : 2 ≤ uf.length) (hk2 : 2 ≤ k) (hk : k ≤ uf.length - 1) :
    ∃ out info, runKMeans sq uf k = .ok (out, info) ∧
      out.length = uf.length ∧
      (∀ r ∈ out, r.cluster_id < k) ∧
      ((makeClusterTags out).map fun s => s.size).sum = uf.length := by
  have h0 : k ≠ 0 := by omega
  have h1 : k ≤ uf.length := by omega
  rcases hrk : runKMeans sq uf k with e | ⟨out, info⟩
  · have hok : exceptIsOk (runKMeans sq uf k) = true := runKMeans_isOk h0 h1
    rw [hrk] at hok
    simp [exceptIsOk] at hok
  · obtain ⟨_, _, _, hout⟩ := runKMeans_shape hrk
    refine ⟨out, info, rfl, by rw [hout, List.length_map],
      runKMeans_labels_lt hrk, ?_⟩
    rw [makeClusterTags_sizes_sum, hout, List.length_map]

/-- C8 witness: three entities, K = 2. -/
theorem c8_partition_witness :
    ∃ out info, runKMeans sqZero demoUF3 2 = .ok (out, info) ∧
      out.length = demoUF3.length ∧
      (∀ r ∈ out, r.cluster_id < 2) ∧
      ((makeClusterTags out).map fun s => s.size).sum = demoUF3.length :=
  c8_partition sqZero demoUF3 2 (by decide) (by decide) (by decide)

/-- C10: the cluster engine returns the feature table with the `cluster_id`
column added; erasing that column gives back exactly the input table, whose
rows are untouched. -/
theorem c10_no_input_mutation (sq : ℚ → ℚ) (uf : List UserFeature) (k : ℕ)
    (out : List LabeledRow) (info : KMInfo)
    (h : runKMeans sq uf k = .ok (out, info)) :
    out.map (fun r => r.feature) = uf := by
  obtain ⟨_, _, _, hout⟩ := runKMeans_shape h
  rw [hout, List.map_map]
  have hid : ((fun r : LabeledRow => r.feature) ∘ fun u : UserFeature =>
      (⟨u, nearestIdx (scaledRowAux sq (featureMatrix uf) (toNumericRow u))
        (finalCenters (scaledOf sq uf) k)⟩ : LabeledRow)) = id := rfl
  rw [hid, List.map_id]

/-- C10 witness: a concrete successful run projects back to its input. -/
theorem c10_no_input_mutation_witness :
    ∃ out info, runKMeans sqZero demoUF 2 = .ok (out, info) ∧
      out.map (fun r => r.feature) = demoUF := by
  rcases hrk : runKMeans sqZero demoUF 2 with e | ⟨out, info⟩
  · have hok : exceptIsOk (runKMeans sqZero demoUF 2) = true :=
      runKMeans_isOk (by decide) (by decide)
    rw [hrk] at hok
    simp [exceptIsOk] at hok
  · exact ⟨out, info, rfl, c10_no_input_mutation sqZero demoUF 2 out info hrk⟩

/-- C2 (amended): `run_kmeans` does no K validation of its own; the underlying
KMeans fit rejects exactly `K = 0` and `K > N`, and for every other K each
entity gets one cluster id in `[0, K)` and is assigned to a nearest center
(its squared distance to its own center is minimal among the K centers). -/
theorem c2_cluster_engine_contract (sq : ℚ → ℚ) (uf : List UserFeature) (k : ℕ) :
    ((k = 0 ∨ uf.length < k) → ∃ e, runKMeans sq uf k = .error e) ∧
    (k ≠ 0 → k ≤ uf.length →
      ∃ out info, runKMeans sq uf k = .ok (out, info) ∧
        out.length = uf.length ∧
        (∀ r ∈ out, r.cluster_id < k) ∧
        info.centers.length = k ∧
        ∀ p ∈ (scaledOf sq uf).zip out, ∀ c ∈ info.centers,
          sqDistL p.1 (info.centers.getD p.2.cluster_id []) ≤ sqDistL p.1 c) := by
  refine ⟨runKMeans_error, ?_⟩
  intro h0 h1
  rcases hrk : runKMeans sq uf k with e | ⟨out, info⟩
  · have hok : exceptIsOk (runKMeans sq uf k) = true := runKMeans_isOk h0 h1
    rw [hrk] at hok
    simp [exceptIsOk] at hok
  · obtain ⟨_, _, hcs, hout⟩ := runKMeans_shape hrk
    refine ⟨out, info, rfl, by rw [hout, List.length_map],
      runKMeans_labels_lt hrk, ?_, ?_⟩
    · rw [hcs]
      exact finalCenters_length (by rw [scaledOf_length]; exact h1)
    · intro p hp c hc
      rw [hout] at hp
      nth_rewrite 1 [scaledOf_eq] at hp
      rw [zip_map_map] at hp
      obtain ⟨u, _, rfl⟩ := List.mem_map.mp hp
      rw [hcs] at hc ⊢
      dsimp only
      exact nearestIdx_min _ _ c hc

/-- C2 counterexample: with two entities and K = 1 (outside the claimed valid
range `[2, N - 1]`), `run_kmeans` succeeds instead of raising. -/
theorem c2_cluster_engine_counterexample :
    exceptIsOk (runKMeans sqZero demoUF 1) = true :=
  runKMeans_isOk (by decide) (by decide)

/-- C2 witness: both branches of the contract at concrete inputs. -/
theorem c2_cluster_engine_contract_witness :
    (∃ e, runKMeans sqZero demoUF 5 = .error e) ∧
    (∃ out info, runKMeans sqZero demoUF 2 = .ok (out, info) ∧
      out.length = demoUF.length ∧
      (∀ r ∈ out, r.cluster_id < 2) ∧
      info.centers.length = 2 ∧
      ∀ p ∈ (scaledOf sqZero demoUF).zip out, ∀ c ∈ info.centers,
        sqDistL p.1 (info.centers.getD p.2.cluster_id []) ≤ sqDistL p.1 c) :=
  ⟨(c2_cluster_engine_contract sqZero demoUF 5).1 (by right; decide),
    (c2_cluster_engine_contract sqZero demoUF 2).2 (by decide) (by decide)⟩

/-! ## C9: the categorical mode helper -/

/-- C9: `top_value` counts only non-missing values (it depends only on the
non-missing sublist), returns the empty string when every value is missing,
and otherwise returns a most frequent value, ties broken by the first
occurrence in the group's stable row order. -/
theorem c9_top_value_mode (xs : List (Option String)) :
    topValue xs = topValue ((xs.filterMap id).map some) ∧
    (xs.filterMap id = [] → topValue xs = "") ∧
    (xs.filterMap id ≠ [] →
      topValue xs ∈ xs.filterMap id ∧
      (∀ w ∈ xs.filterMap id,
        (xs.filterMap id).count w ≤ (xs.filterMap id).count (topValue xs)) ∧
      (∀ w ∈ xs.filterMap id,
        (xs.filterMap id).count w = (xs.filterMap id).count (topValue xs) →
        (xs.filterMap id).indexOf (topValue xs) ≤ (xs.filterMap id).indexOf w)) := by
  have hmm : ((xs.filterMap id).map some).filterMap id = xs.filterMap id := by
    rw [List.filterMap_map]
    simp
  refine ⟨?_, ?_, ?_⟩
  · simp only [topValue, hmm]
  · intro h
    simp only [topValue, h]
    rfl
  · intro hne
    have hfo_ne : firstOccs (xs.filterMap id) ≠ [] := by
      obtain ⟨x, hx⟩ := List.exists_mem_of_ne_nil _ hne
      exact List.ne_nil_of_mem ((mem_firstOccs _ x).mpr hx)
    obtain ⟨m, hm⟩ :=
      maxByKey_isSome (fun v => ((xs.filterMap id).count v : ℚ)) hfo_ne
    have htv : topValue xs = m := by
      simp only [topValue, hm]
    rw [htv]
    refine ⟨(mem_firstOccs _ m).mp (maxByKey_mem hm), ?_, ?_⟩
    · intro w hw
      have hle := maxByKey_le hm w ((mem_firstOccs _ w).mpr hw)
      exact_mod_cast hle
    · intro w hw hcnt
      have heq : ((xs.filterMap id).count w : ℚ) = ((xs.filterMap id).count m : ℚ) := by
        exact_mod_cast hcnt
      exact maxByKey_first (fun v => (xs.filterMap id).indexOf v) hm
        (firstOccs_indexOf_pairwise _) w ((mem_firstOccs _ w).mpr hw) heq

/-- C9 witness: on a column with a missing entry and a count tie, the mode is
the first-encountered value and its stated properties hold concretely. -/
theorem c9_top_value_mode_witness :
    topValue demoOpts = "" ∨
    (topValue demoOpts ∈ demoOpts.filterMap id ∧
      (demoOpts.filterMap id).count "b" ≤ (demoOpts.filterMap id).count (topValue demoOpts) ∧
      (demoOpts.filterMap id).indexOf (topValue demoOpts) ≤ (demoOpts.filterMap id).indexOf "b") := by
  have h := (c9_top_value_mode demoOpts).2.2 (by decide)
  exact Or.inr ⟨h.1, h.2.1 "b" (by decide), h.2.2 "b" (by decide) (by decide)⟩

/-! ## C4: the feature builder -/

theorem int_sum_nonneg_le_length {l : List ℤ} (h : ∀ x ∈ l, x = 0 ∨ x = 1) :
    0 ≤ l.sum ∧ l.sum ≤ (l.length : ℤ) := by
  induction l with
  | nil => simp
  | cons x xs ih =>
    obtain ⟨h1, h2⟩ := ih fun y hy => h y (List.mem_cons_of_mem _ hy)
    have hx := h x (List.mem_cons_self _ _)
    simp only [List.sum_cons, List.length_cons]
    push_cast
    rcases hx with rfl | rfl <;> constructor <;> omega

theorem buildUserFeatures_ids (now : ℚ) (df : List CleanRow) :
    (buildUserFeatures now df).map (fun f => f.user_id) = userIds df := by
  unfold buildUserFeatures
  rw [List.map_map,
    show ((fun f : UserFeature => f.user_id) ∘ fun u =>
      mkUserFeature now u (entityRows df u)) = id from rfl, List.map_id]

theorem mem_userIds {df : List CleanRow} {u : String} :
    u ∈ userIds df ↔ ∃ r ∈ df, r.user_id = u := by
  unfold userIds
  rw [(List.perm_insertionSort _ _).mem_iff, List.mem_dedup, List.mem_map]

theorem userIds_nodup (df : List CleanRow) : (userIds df).Nodup :=
  (List.perm_insertionSort _ _).nodup_iff.mpr (List.nodup_dedup _)

theorem mem_buildUserFeatures {now : ℚ} {df : List CleanRow} {f : UserFeature}
    (h : f ∈ buildUserFeatures now df) :
    ∃ u ∈ userIds df, f = mkUserFeature now u (entityRows df u) := by
  obtain ⟨u, hu, hf⟩ := List.mem_map.mp h
  exact ⟨u, hu, hf.symm⟩

theorem entityRows_ne_nil {df : List CleanRow} {u : String} (h : u ∈ userIds df) :
    entityRows df u ≠ [] := by
  obtain ⟨r, hr, hru⟩ := mem_userIds.mp h
  intro hnil
  have hmem : r ∈ entityRows df u := List.mem_filter.mpr ⟨hr, by simp [hru]⟩
  rw [hnil] at hmem
  exact List.not_mem_nil r hmem

/-- C4: the feature builder yields exactly one row per distinct entity id; per
entity, the total amount is the sum of its amounts, the event count is its row
count, the average is total over count, the promo/refund ratios are the means
of the flag columns (and land in `[0, 1]` when the flags are 0/1); and on the
sample data `U001` gets total 1558, count 2, promo ratio 1/2. -/
theorem c4_feature_builder :
    (∀ (now : ℚ) (df : List CleanRow),
      (((buildUserFeatures now df).map fun f => f.user_id).Nodup ∧
        ∀ u : String, (u ∈ (buildUserFeatures now df).map fun f => f.user_id) ↔
          ∃ r ∈ df, r.user_id = u) ∧
      ∀ f ∈ buildUserFeatures now df,
        f.total_amount = ((entityRows df f.user_id).map fun r => r.amount).sum ∧
        f.order_count = (entityRows df f.user_id).length ∧
        f.avg_amount = f.total_amount / (f.order_count : ℚ) ∧
        f.promo_ratio = ((((entityRows df f.user_id).map fun r => r.is_promo).sum : ℤ) : ℚ)
          / (f.order_count : ℚ) ∧
        f.refund_ratio = ((((entityRows df f.user_id).map fun r => r.refund_flag).sum : ℤ) : ℚ)
          / (f.order_count : ℚ) ∧
        ((∀ r ∈ entityRows df f.user_id, r.is_promo = 0 ∨ r.is_promo = 1) →
          0 ≤ f.promo_ratio ∧ f.promo_ratio ≤ 1) ∧
        ((∀ r ∈ entityRows df f.user_id, r.refund_flag = 0 ∨ r.refund_flag = 1) →
          0 ≤ f.refund_ratio ∧ f.refund_ratio ≤ 1)) ∧
    ∀ now : ℚ, ∃ f ∈ buildUserFeatures now demoDf,
      f.user_id = "U001" ∧ f.total_amount = 1558 ∧ f.order_count = 2 ∧
      f.promo_ratio = 1 / 2 := by
  constructor
  · intro now df
    refine ⟨⟨?_, ?_⟩, ?_⟩
    · rw [buildUserFeatures_ids]
      exact userIds_nodup df
    · intro u
      rw [buildUserFeatures_ids]
      exact mem_userIds
    · intro f hf
      obtain ⟨u, hu, rfl⟩ := mem_buildUserFeatures hf
      have hpos : 0 < ((entityRows df u).length : ℚ) := by
        exact_mod_cast List.length_pos.mpr (entityRows_ne_nil hu)
      refine ⟨rfl, rfl, rfl, rfl, rfl, ?_, ?_⟩
      · intro hflags
        have hb := int_sum_nonneg_le_length
          (l := (entityRows df u).map fun r => r.is_promo)
          (by
            intro x hx
            obtain ⟨r, hr, rfl⟩ := List.mem_map.mp hx
            exact hflags r hr)
        rw [List.length_map] at hb
        constructor
        · apply div_nonneg _ hpos.le
          exact_mod_cast hb.1
        · show ((((entityRows df u).map fun r => r.is_promo).sum : ℤ) : ℚ)
            / (((entityRows df u).length : ℕ) : ℚ) ≤ 1
          rw [div_le_one hpos]
          exact_mod_cast hb.2
      · intro hflags
        have hb := int_sum_nonneg_le_length
          (l := (entityRows df u).map fun r => r.refund_flag)
          (by
            intro x hx
            obtain ⟨r, hr, rfl⟩ := List.mem_map.mp hx
            exact hflags r hr)
        rw [List.length_map] at hb
        constructor
        · apply div_nonneg _ hpos.le
          exact_mod_cast hb.1
        · show ((((entityRows df u).map fun r => r.refund_flag).sum : ℤ) : ℚ)
            / (((entityRows df u).length : ℕ) : ℚ) ≤ 1
          rw [div_le_one hpos]
          exact_mod_cast hb.2
  · intro now
    refine ⟨mkUserFeature now "U001" (entityRows demoDf "U001"), ?_, rfl, ?_, ?_, ?_⟩
    · exact List.mem_map.mpr ⟨"U001", by decide, rfl⟩
    · show ((entityRows demoDf "U001").map fun r => r.amount).sum = (1558 : ℚ)
      decide
    · show (entityRows demoDf "U001").length = 2
      decide
    · show ((((entityRows demoDf "U001").map fun r => r.is_promo).sum : ℤ) : ℚ)
        / (((entityRows demoDf "U001").length : ℕ) : ℚ) = 1 / 2
      decide

/-- C4 witness: the ratio bounds discharged on the sample data. -/
theorem c4_feature_builder_witness :
    0 ≤ (mkUserFeature 0 "U001" (entityRows demoDf "U001")).promo_ratio ∧
    (mkUserFeature 0 "U001" (entityRows demoDf "U001")).promo_ratio ≤ 1 := by
  have h := ((c4_feature_builder.1 0 demoDf).2
    (mkUserFeature 0 "U001" (entityRows demoDf "U001"))
    (List.mem_map.mpr ⟨"U001", by decide, rfl⟩)).2.2.2.2.2.1
  exact h (by decide)

/-! ## C6: the standardizer on degenerate columns -/

theorem meanQ_const {l : List ℚ} {c : ℚ} (h : ∀ x ∈ l, x = c) (hne : l ≠ []) :
    meanQ l = c := by
  unfold meanQ
  rw [List.sum_eq_card_nsmul l c h, nsmul_eq_mul]
  have hl : ((l.length : ℚ)) ≠ 0 :=
    Nat.cast_ne_zero.mpr (List.length_pos.mpr hne).ne'
  exact mul_div_cancel_left₀ c hl

theorem varQ_of_const {l : List ℚ} {c : ℚ} (h : ∀ x ∈ l, x = c) (hne : l ≠ []) :
    varQ l = 0 := by
  unfold varQ
  rw [meanQ_const h hne]
  have hz : (l.map fun x => (x - c) ^ 2).sum = 0 := by
    apply List.sum_eq_zero
    intro y hy
    obtain ⟨x, hx, rfl⟩ := List.mem_map.mp hy
    rw [h x hx, sub_self]
    ring
  rw [hz, zero_div]

theorem getD_range_map (f : ℕ → ℚ) (n j : ℕ) :
    ((List.range n).map f).getD j 0 = if j < n then f j else 0 := by
  by_cases hj : j < n
  · rw [if_pos hj, List.getD_eq_getElem?_getD, List.getElem?_map, List.getElem?_range hj]
    rfl
  · rw [if_neg hj, List.getD_eq_getElem?_getD, List.getElem?_map,
      List.getElem?_eq_none (by rw [List.length_range]; exact not_lt.mp hj)]
    rfl

theorem scaledRowAux_getD (sq : ℚ → ℚ) (rows : List (List ℚ)) (r : List ℚ) (j : ℕ) :
    (scaledRowAux sq rows r).getD j 0 =
      if j < r.length then
        (r.getD j 0 - meanQ (colVals rows j)) / scaleQ sq (colVals rows j)
      else 0 := by
  unfold scaledRowAux
  exact getD_range_map _ _ _

/-- C6: a column that is constant over all entities comes out of the
standardizer as all zeros, and the divisor used for any column is never zero
(the zero scale is replaced by one before dividing). -/
theorem c6_standardizer (sq : ℚ → ℚ) (rows : List (List ℚ)) (j : ℕ) (c : ℚ)
    (hsq : sq 0 = 0) (hne : rows ≠ []) (hconst : ∀ r ∈ rows, r.getD j 0 = c) :
    (∀ r' ∈ standardize sq rows, r'.getD j 0 = 0) ∧
    ∀ l : List ℚ, scaleQ sq l ≠ 0 := by
  have hcol : ∀ x ∈ colVals rows j, x = c := by
    intro x hx
    obtain ⟨r, hr, rfl⟩ := List.mem_map.mp hx
    exact hconst r hr
  have hcolne : colVals rows j ≠ [] := by
    intro hcn
    exact hne (List.map_eq_nil_iff.mp hcn)
  have hscale : scaleQ sq (colVals rows j) = 1 := by
    unfold scaleQ
    rw [varQ_of_const hcol hcolne, hsq, if_pos rfl]
  refine ⟨?_, ?_⟩
  · intro r' hr'
    unfold standardize at hr'
    obtain ⟨r, hr, rfl⟩ := List.mem_map.mp hr'
    rw [scaledRowAux_getD]
    by_cases hj : j < r.length
    · rw [if_pos hj, meanQ_const hcol hcolne, hscale, hconst r hr, sub_self, zero_div]
    · rw [if_neg hj]
  · intro l
    unfold scaleQ
    by_cases hz : sq (varQ l) = 0
    · rw [if_pos hz]; exact one_ne_zero
    · rw [if_neg hz]; exact hz

/-- C6 witness: a concrete matrix whose first column is constant. -/
theorem c6_standardizer_witness :
    (scaledRowAux sqZero [[1, 2], [1, 3]] [1, 2]).getD 0 0 = 0 ∧
    scaleQ sqZero [1, 1] ≠ 0 := by
  have h := c6_standardizer sqZero [[1, 2], [1, 3]] 0 1 rfl (by decide) (by decide)
  exact ⟨h.1 (scaledRowAux sqZero [[1, 2], [1, 3]] [1, 2])
    (List.mem_map.mpr ⟨[1, 2], by decide, rfl⟩), h.2 [1, 1]⟩

/-! ## C5: the empty-dataset abort -/

/-- C5: when zero rows survive cleaning, the pipeline raises the
empty-dataset error and returns the database unchanged: in particular no
previously persisted cluster profile is deleted or modified (the run aborts
before the profile-replacement step, and `@transaction.atomic` rolls back
anything earlier). -/
theorem c5_empty_dataset_abort (sil ch dbi : List (List ℚ) → List ℕ → Option ℚ)
    (sq : ℚ → ℚ) (now : ℚ) (raw : List RawRow) (cluster_count : ℕ)
    (auto_k auto_k_multi : Bool) (kmin kmax : ℤ) (db : DB)
    (h : cleanRows raw = []) :
    processUpload sil ch dbi sq now raw cluster_count auto_k auto_k_multi
        kmin kmax db = (db, .error emptyMsg) ∧
    (processUpload sil ch dbi sq now raw cluster_count auto_k auto_k_multi
        kmin kmax db).1.profiles = db.profiles := by
  have hload : loadCsvToDf raw = .error emptyMsg := by
    unfold loadCsvToDf
    rw [h]
    rfl
  have hmain : processUpload sil ch dbi sq now raw cluster_count auto_k auto_k_multi
      kmin kmax db = (db, .error emptyMsg) := by
    unfold processUpload
    rw [hload]
  exact ⟨hmain, by rw [hmain]⟩

/-- C5 witness: a header-only upload (zero data rows) against a database that
already holds one profile. -/
theorem c5_empty_dataset_abort_witness :
    processUpload (fun _ _ => none) (fun _ _ => none) (fun _ _ => none) sqZero 0
        [] 2 false true 2 8 demoDB = (demoDB, .error emptyMsg) ∧
    (processUpload (fun _ _ => none) (fun _ _ => none) (fun _ _ => none) sqZero 0
        [] 2 false true 2 8 demoDB).1.profiles = demoDB.profiles :=
  c5_empty_dataset_abort (fun _ _ => none) (fun _ _ => none) (fun _ _ => none)
    sqZero 0 [] 2 false true 2 8 demoDB rfl

/-! ## C3: the candidate K range -/

/-- C3 counterexample: the claimed clamp `K ≤ min(k_max, N - 1, 10)` fails both
when `k_min` exceeds that bound (`n = 5`, `k_min = 7`, `k_max = 8` evaluates
K = 7 > 4) and when the bound is below 2 (`n = 2`, `k_min = 2`, `k_max = 8`
evaluates K = 2 > 1). -/
theorem c3_candidate_range_counterexample :
    ((7 : ℤ) ∈ candidateKs 5 7 8 ∧ ¬((7 : ℤ) ≤ min (min 8 ((5 : ℤ) - 1)) 10)) ∧
    ((2 : ℤ) ∈ candidateKs 2 2 8 ∧ ¬((2 : ℤ) ≤ min (min 8 ((2 : ℤ) - 1)) 10)) := by
  decide

/-- C3 (amended): every candidate K satisfies `2 ≤ K`; and whenever `k_max` is
nonzero, the bound `min(k_max, N - 1, 10)` is at least 2 and `k_min` does not
exceed it, every candidate K also satisfies `K ≤ min(k_max, N - 1, 10)`.
(The code's `effective_k_max = max(effective_k_min, min(k_max or 8, N - 1, 10))`
escapes the claimed clamp exactly when `k_min` exceeds the bound or the bound
is below 2.) -/
theorem c3_candidate_range (n : ℕ) (kmin kmax : ℤ) (hn : 2 ≤ n) :
    (∀ K ∈ candidateKs n kmin kmax, 2 ≤ K) ∧
    (kmax ≠ 0 → 2 ≤ min (min kmax ((n : ℤ) - 1)) 10 →
      kmin ≤ min (min kmax ((n : ℤ) - 1)) 10 →
      ∀ K ∈ candidateKs n kmin kmax, K ≤ min (min kmax ((n : ℤ) - 1)) 10) := by
  refine ⟨candidateKs_ge, ?_⟩
  intro hk0 h2 hkmin K hK
  have hle := candidateKs_le K hK
  have horb : orDefault kmax 8 = kmax := if_neg hk0
  rw [horb] at hle
  have hod : orDefault kmin 2 ≤ min (min kmax ((n : ℤ) - 1)) 10 := by
    unfold orDefault
    by_cases hz : kmin = 0
    · rw [if_pos hz]; exact h2
    · rw [if_neg hz]; exact hkmin
  have hmax : max (max 2 (orDefault kmin 2)) (min (min kmax ((n : ℤ) - 1)) 10)
      = min (min kmax ((n : ℤ) - 1)) 10 :=
    max_eq_right (max_le h2 hod)
  rw [hmax] at hle
  exact hle

/-- C3 witness: the amended clamp discharged at `n = 6`, `k_min = 2`,
`k_max = 8` for the candidate K = 5. -/
theorem c3_candidate_range_witness :
    (2 : ℤ) ≤ 5 ∧ (5 : ℤ) ≤ min (min 8 ((6 : ℤ) - 1)) 10 :=
  ⟨(c3_candidate_range 6 2 8 (by decide)).1 5 (by decide),
    (c3_candidate_range 6 2 8 (by decide)).2 (by decide) (by decide) (by decide)
      5 (by decide)⟩

/-! ## C1: the K-selector priority rule -/

theorem pickBest_of_sil {multi : Bool} {scores : List KScore} {m : KScore}
    (hm : maxByKey (fun s => s.silhouette.getD 0)
      (scores.filter fun s => s.silhouette.isSome) = some m) :
    pickBest multi scores = some (m, "silhouette") := by
  unfold pickBest
  rw [hm]

theorem pickBest_of_ch {scores : List KScore} {m : KScore}
    (hsil : scores.filter (fun s => s.silhouette.isSome) = [])
    (hm : maxByKey (fun s => s.ch.getD 0)
      (scores.filter fun s => s.ch.isSome) = some m) :
    pickBest true scores = some (m, "calinski_harabasz") := by
  unfold pickBest
  rw [hsil, hm]
  rfl

theorem pickBest_of_dbi {scores : List KScore} {m : KScore}
    (hsil : scores.filter (fun s => s.silhouette.isSome) = [])
    (hch : scores.filter (fun s => s.ch.isSome) = [])
    (hm : minByKey (fun s => s.dbi.getD 0)
      (scores.filter fun s => s.dbi.isSome) = some m) :
    pickBest true scores = some (m, "davies_bouldin") := by
  unfold pickBest
  rw [hsil, hch, hm]
  rfl

theorem pickBest_of_inertia {multi : Bool} {scores : List KScore} {m : KScore}
    (hsil : scores.filter (fun s => s.silhouette.isSome) = [])
    (hchdbi : multi = true → scores.filter (fun s => s.ch.isSome) = [] ∧
      scores.filter (fun s => s.dbi.isSome) = [])
    (hm : minByKey (fun s => s.inertia) scores = some m) :
    pickBest multi scores = some (m, "inertia") := by
  unfold pickBest
  rw [hsil, hm]
  cases multi
  · rfl
  · obtain ⟨hch, hdbi⟩ := hchdbi rfl
    rw [hch, hdbi]
    rfl

/-- C1: `pick_best` selects by the priority silhouette (maximize) over
Calinski-Harabasz (maximize, multi-metric only) over Davies-Bouldin
(minimize, multi-metric only) over inertia (minimize), breaking ties towards
the smallest K; and in particular for the auto range `k_min = 2, k_max = 3`
over at least four entities, a strictly higher silhouette at K = 2 forces the
selected K to be 2 with the silhouette method label, regardless of
inertia ordering. -/
theorem c1_selector_priority :
    (∀ (multi : Bool) (scores : List KScore),
      scores.Pairwise (fun a b => a.k < b.k) →
      ((∃ s ∈ scores, s.silhouette.isSome) →
        ∃ s v, pickBest multi scores = some (s, "silhouette") ∧ s ∈ scores ∧
          s.silhouette = some v ∧
          (∀ t ∈ scores, ∀ w, t.silhouette = some w → w ≤ v) ∧
          (∀ t ∈ scores, t.silhouette = some v → s.k ≤ t.k)) ∧
      ((∀ s ∈ scores, s.silhouette = none) → multi = true →
        (∃ s ∈ scores, s.ch.isSome) →
        ∃ s v, pickBest multi scores = some (s, "calinski_harabasz") ∧
          s ∈ scores ∧ s.ch = some v ∧
          (∀ t ∈ scores, ∀ w, t.ch = some w → w ≤ v) ∧
          (∀ t ∈ scores, t.ch = some v → s.k ≤ t.k)) ∧
      ((∀ s ∈ scores, s.silhouette = none) → multi = true →
        (∀ s ∈ scores, s.ch = none) → (∃ s ∈ scores, s.dbi.isSome) →
        ∃ s v, pickBest multi scores = some (s, "davies_bouldin") ∧
          s ∈ scores ∧ s.dbi = some v ∧
          (∀ t ∈ scores, ∀ w, t.dbi = some w → v ≤ w) ∧
          (∀ t ∈ scores, t.dbi = some v → s.k ≤ t.k)) ∧
      ((∀ s ∈ scores, s.silhouette = none) →
        (multi = true → (∀ s ∈ scores, s.ch = none) ∧ ∀ s ∈ scores, s.dbi = none) →
        scores ≠ [] →
        ∃ s, pickBest multi scores = some (s, "inertia") ∧ s ∈ scores ∧
          (∀ t ∈ scores, s.inertia ≤ t.inertia) ∧
          (∀ t ∈ scores, t.inertia = s.inertia → s.k ≤ t.k))) ∧
    (∀ (sil ch dbi : List (List ℚ) → List ℕ → Option ℚ) (sq : ℚ → ℚ)
        (uf : List UserFeature) (multi : Bool) (l₂ l₃ : List ℕ)
        (cs₂ cs₃ : List (List ℚ)) (i₂ i₃ : ℚ) (a : ℚ),
      4 ≤ uf.length →
      kmeansFit (scaledOf sq uf) 2 = .ok (l₂, cs₂, i₂) →
      kmeansFit (scaledOf sq uf) 3 = .ok (l₃, cs₃, i₃) →
      (if l₂.dedup.length > 1 then sil (scaledOf sq uf) l₂ else none) = some a →
      (∀ b, (if l₃.dedup.length > 1 then sil (scaledOf sq uf) l₃ else none)
        = some b → b < a) →
      ∃ scores, chooseKAuto sil ch dbi sq uf 2 3 multi
        = .ok (2, scores, "silhouette")) := by
  constructor
  · intro multi scores hp
    refine ⟨?_, ?_, ?_, ?_⟩
    · rintro ⟨s0, hs0, hs0some⟩
      have hLne : scores.filter (fun s => s.silhouette.isSome) ≠ [] :=
        List.ne_nil_of_mem (List.mem_filter.mpr ⟨hs0, by simpa using hs0some⟩)
      obtain ⟨m, hm⟩ := maxByKey_isSome (fun s => s.silhouette.getD 0) hLne
      have hmmem := maxByKey_mem hm
      have hmscores : m ∈ scores := (List.mem_filter.mp hmmem).1
      obtain ⟨v, hv⟩ := Option.isSome_iff_exists.mp
        (by simpa using (List.mem_filter.mp hmmem).2)
      refine ⟨m, v, pickBest_of_sil hm, hmscores, hv, ?_, ?_⟩
      · intro t ht w hw
        have htL : t ∈ scores.filter fun s => s.silhouette.isSome :=
          List.mem_filter.mpr ⟨ht, by simp [hw]⟩
        have hle := maxByKey_le hm t htL
        simpa [hw, hv] using hle
      · intro t ht hveq
        have htL : t ∈ scores.filter fun s => s.silhouette.isSome :=
          List.mem_filter.mpr ⟨ht, by simp [hveq]⟩
        have hkey : t.silhouette.getD 0 = m.silhouette.getD 0 := by
          rw [hveq, hv]
        exact maxByKey_first (fun s => s.k) hm (hp.filter _) t htL hkey
    · intro hnone hmulti
      rintro ⟨s0, hs0, hs0some⟩
      subst hmulti
      have hsil_nil : scores.filter (fun s => s.silhouette.isSome) = [] := by
        rw [List.filter_eq_nil_iff]
        intro s hs
        simp [hnone s hs]
      have hLne : scores.filter (fun s => s.ch.isSome) ≠ [] :=
        List.ne_nil_of_mem (List.mem_filter.mpr ⟨hs0, by simpa using hs0some⟩)
      obtain ⟨m, hm⟩ := maxByKey_isSome (fun s => s.ch.getD 0) hLne
      have hmmem := maxByKey_mem hm
      have hmscores : m ∈ scores := (List.mem_filter.mp hmmem).1
      obtain ⟨v, hv⟩ := Option.isSome_iff_exists.mp
        (by simpa using (List.mem_filter.mp hmmem).2)
      refine ⟨m, v, pickBest_of_ch hsil_nil hm, hmscores, hv, ?_, ?_⟩
      · intro t ht w hw
        have htL : t ∈ scores.filter fun s => s.ch.isSome :=
          List.mem_filter.mpr ⟨ht, by simp [hw]⟩
        have hle := maxByKey_le hm t htL
        simpa [hw, hv] using hle
      · intro t ht hveq
        have htL : t ∈ scores.filter fun s => s.ch.isSome :=
          List.mem_filter.mpr ⟨ht, by simp [hveq]⟩
        have hkey : t.ch.getD 0 = m.ch.getD 0 := by rw [hveq, hv]
        exact maxByKey_first (fun s => s.k) hm (hp.filter _) t htL hkey
    · intro hnone hmulti hchnone
      rintro ⟨s0, hs0, hs0some⟩
      subst hmulti
      have hsil_nil : scores.filter (fun s => s.silhouette.isSome) = [] := by
        rw [List.filter_eq_nil_iff]
        intro s hs
        simp [hnone s hs]
      have hch_nil : scores.filter (fun s => s.ch.isSome) = [] := by
        rw [List.filter_eq_nil_iff]
        intro s hs
        simp [hchnone s hs]
      have hLne : scores.filter (fun s => s.dbi.isSome) ≠ [] :=
        List.ne_nil_of_mem (List.mem_filter.mpr ⟨hs0, by simpa using hs0some⟩)
      obtain ⟨m, hm⟩ := minByKey_isSome (fun s => s.dbi.getD 0) hLne
      have hmmem := minByKey_mem hm
      have hmscores : m ∈ scores := (List.mem_filter.mp hmmem).1
      obtain ⟨v, hv⟩ := Option.isSome_iff_exists.mp
        (by simpa using (List.mem_filter.mp hmmem).2)
      refine ⟨m, v, pickBest_of_dbi hsil_nil hch_nil hm, hmscores, hv, ?_, ?_⟩
      · intro t ht w hw
        have htL : t ∈ scores.filter fun s => s.dbi.isSome :=
          List.mem_filter.mpr ⟨ht, by simp [hw]⟩
        have hle := minByKey_le hm t htL
        simpa [hw, hv] using hle
      · intro t ht hveq
        have htL : t ∈ scores.filter fun s => s.dbi.isSome :=
          List.mem_filter.mpr ⟨ht, by simp [hveq]⟩
        have hkey : t.dbi.getD 0 = m.dbi.getD 0 := by rw [hveq, hv]
        exact minByKey_first (fun s => s.k) hm (hp.filter _) t htL hkey
    · intro hnone hchdbi hne
      have hsil_nil : scores.filter (fun s => s.silhouette.isSome) = [] := by
        rw [List.filter_eq_nil_iff]
        intro s hs
        simp [hnone s hs]
      have hfilters : multi = true → scores.filter (fun s => s.ch.isSome) = [] ∧
          scores.filter (fun s => s.dbi.isSome) = [] := by
        intro hm
        obtain ⟨hch, hdbi⟩ := hchdbi hm
        constructor
        · rw [List.filter_eq_nil_iff]
          intro s hs
          simp [hch s hs]
        · rw [List.filter_eq_nil_iff]
          intro s hs
          simp [hdbi s hs]
      obtain ⟨m, hm⟩ := minByKey_isSome (fun s => s.inertia) hne
      refine ⟨m, pickBest_of_inertia hsil_nil hfilters hm, minByKey_mem hm,
        fun t ht => minByKey_le hm t ht, fun t ht hveq =>
          minByKey_first (fun s => s.k) hm hp t ht hveq⟩
  · intro sil ch dbi sq uf multi l₂ l₃ cs₂ cs₃ i₂ i₃ a hn hfit2 hfit3 hsa hsb
    unfold chooseKAuto
    rw [if_neg (by omega : ¬uf.length < 2), candidateKs_two_three hn]
    have he2 : evalCandidate sil ch dbi multi (scaledOf sq uf) ((2 : ℤ)).toNat
        = .ok ⟨2, i₂, some a, if multi then ch (scaledOf sq uf) l₂ else none,
            if multi then dbi (scaledOf sq uf) l₂ else none⟩ := by
      show evalCandidate sil ch dbi multi (scaledOf sq uf) 2 = _
      unfold evalCandidate
      rw [hfit2]
      dsimp only
      rw [hsa]
    have he3 : evalCandidate sil ch dbi multi (scaledOf sq uf) ((3 : ℤ)).toNat
        = .ok ⟨3, i₃, if l₃.dedup.length > 1 then sil (scaledOf sq uf) l₃ else none,
            if multi then ch (scaledOf sq uf) l₃ else none,
            if multi then dbi (scaledOf sq uf) l₃ else none⟩ := by
      show evalCandidate sil ch dbi multi (scaledOf sq uf) 3 = _
      unfold evalCandidate
      rw [hfit3]
    have hscores : evalScores sil ch dbi multi (scaledOf sq uf) [2, 3]
        = .ok [⟨2, i₂, some a, if multi then ch (scaledOf sq uf) l₂ else none,
            if multi then dbi (scaledOf sq uf) l₂ else none⟩,
          ⟨3, i₃, if l₃.dedup.length > 1 then sil (scaledOf sq uf) l₃ else none,
            if multi then ch (scaledOf sq uf) l₃ else none,
            if multi then dbi (scaledOf sq uf) l₃ else none⟩] := by
      unfold evalScores
      rw [he2]
      unfold evalScores
      rw [he3]
      rfl
    rw [hscores]
    rcases h3v : (if l₃.dedup.length > 1 then sil (scaledOf sq uf) l₃ else none) with _ | b
    · have hpb : pickBest multi
          [⟨2, i₂, some a, if multi then ch (scaledOf sq uf) l₂ else none,
              if multi then dbi (scaledOf sq uf) l₂ else none⟩,
            ⟨3, i₃, none,
              if multi then ch (scaledOf sq uf) l₃ else none,
              if multi then dbi (scaledOf sq uf) l₃ else none⟩]
          = some (⟨2, i₂, some a, if multi then ch (scaledOf sq uf) l₂ else none,
              if multi then dbi (scaledOf sq uf) l₂ else none⟩, "silhouette") := by
        apply pickBest_of_sil
        rfl
      dsimp only
      rw [hpb]
      exact ⟨_, rfl⟩
    · have hba : b < a := hsb b h3v
      have hpb : pickBest multi
          [⟨2, i₂, some a, if multi then ch (scaledOf sq uf) l₂ else none,
              if multi then dbi (scaledOf sq uf) l₂ else none⟩,
            ⟨3, i₃, some b,
              if multi then ch (scaledOf sq uf) l₃ else none,
              if multi then dbi (scaledOf sq uf) l₃ else none⟩]
          = some (⟨2, i₂, some a, if multi then ch (scaledOf sq uf) l₂ else none,
              if multi then dbi (scaledOf sq uf) l₂ else none⟩, "silhouette") := by
        apply pickBest_of_sil
        show some (maxStep (fun s : KScore => s.silhouette.getD 0)
            (⟨2, i₂, some a, if multi then ch (scaledOf sq uf) l₂ else none,
              if multi then dbi (scaledOf sq uf) l₂ else none⟩ : KScore)
            (⟨3, i₃, some b, if multi then ch (scaledOf sq uf) l₃ else none,
              if multi then dbi (scaledOf sq uf) l₃ else none⟩ : KScore))
          = some (⟨2, i₂, some a, if multi then ch (scaledOf sq uf) l₂ else none,
              if multi then dbi (scaledOf sq uf) l₂ else none⟩ : KScore)
        unfold maxStep
        dsimp only [Option.getD_some]
        rw [if_neg (not_lt.mpr hba.le)]
      dsimp only
      rw [hpb]
      exact ⟨_, rfl⟩

/-- C1 witness: the silhouette branch applied to the two concrete candidate
scores where K = 2 has the higher silhouette but the larger inertia. -/
theorem c1_selector_priority_witness :
    ∃ s v, pickBest true demoScores = some (s, "silhouette") ∧ s ∈ demoScores ∧
      s.silhouette = some v ∧
      (∀ t ∈ demoScores, ∀ w, t.silhouette = some w → w ≤ v) ∧
      (∀ t ∈ demoScores, t.silhouette = some v → s.k ≤ t.k) :=
  (c1_selector_priority.1 true demoScores (by decide)).1
    ⟨⟨2, 5, some 1, none, none⟩, by decide, by decide⟩

end Powernode
